import Mathlib

/-!
Shallow embedding of the core of prometheus-license-exporter (the seven
license-manager backend adapters in src/flexlm.rs, src/rlm.rs, src/lmx.rs,
src/dsls.rs, src/hasp.rs, src/licman20.rs, src/olicense.rs together with the
shared exclusion / expiration-aggregation / endpoint-selection logic), and
proofs settling the frozen claims about it.

Modelling conventions, used throughout:

* An expiration instant in the source is an `f64`: either a chrono timestamp
  (`NaiveDateTime::timestamp() as f64`, an integral value) or `f64::INFINITY`
  for perpetual licenses.  The reachable values are therefore exactly the
  integers plus positive infinity, which we embed as `WithTop Int`
  (`⊤` = `f64::INFINITY`).  On this set, Rust's `sort_by(partial_cmp.unwrap())`
  is the linear order of `WithTop Int`, `dedup_by(|a,b| a == b)` removes
  consecutive equal values, and keying a `HashMap<String, _>` by
  `expiration.to_string()` is injective, so we key by the instant itself.

* Rust `HashMap` iteration order is unspecified.  Wherever the source
  iterates a map, the model either iterates an association list in insertion
  order (when only the set of entries matters for the claim) or takes the
  iteration order as an explicit parameter constrained to be a permutation
  of the map entries (when the claim is about order, as for the LM-X /
  OLicense endpoint loops).

* Each line-oriented adapter classifies a line with a fixed ordered list of
  anchored regexes and then works on the capture groups.  The model's input
  is the classified form: an inductive type with one constructor per regex,
  carrying the capture-group strings; `other` stands for a line matching no
  regex.  Every constructor is annotated with the exact regex it embeds.
  The DSLS adapter is modelled directly on strings, since its record grammar
  is plain `split(',')` plus literal marker lines.

* `chrono::NaiveDateTime::parse_from_str` is external; it is modelled by
  executable parsers for the format strings the adapters use
  (`%d-%b-%Y %H:%M:%S` and `%a %b %d, %Y %H:%M`), with the timestamp
  computed by the standard days-from-civil formula.  The model does not
  re-validate the weekday name of `%a` against the date; no claim depends
  on that.
-/

/-- Expiration instant: a finite chrono timestamp (seconds since epoch) or
`f64::INFINITY` (`⊤`) for perpetual licenses. -/
abbrev Inst := WithTop Int

/-- One parsed expiring record: the fields every adapter stores in its
`*LicenseExpiration` struct that the shared expiration pipeline reads
(`license_count` and the instant), plus the feature name used by the
exclusion filter.  Adapter-specific extra fields (version, vendor, module,
product key) do not influence the pipeline and are omitted. -/
structure ExpRec where
  feature : String
  count : Int
  inst : Inst
deriving DecidableEq, Repr

/-- Model of `license::is_excluded` from src/license.rs: linear scan of the optional
exclusion list for an exact string match. -/
def is_excluded (excludes : Option (List String)) (feature : String) : Bool :=
  match excludes with
  | some excl => excl.any (fun f => f = feature)
  | none => false

/-- Numeric value of a digit string. -/
def digitsVal0 (cs : List Char) : Int :=
  cs.foldl (fun n c => n * 10 + ((c.toNat : Int) - 48)) 0

/-! ### Models of Rust string primitives

`String.toInt?`, `String.splitOn`, `String.startsWith` and
`String.contains` in Lean core are backed by extern functions that the
kernel cannot evaluate, so the Rust primitives are modelled directly on the
character list. -/

/-- Rust `str::parse::<i64>`: optional sign, then at least one digit
(overflow is not modelled; no claim exercises it). -/
def parseI64 (s : String) : Option Int :=
  match s.data with
  | [] => none
  | '+' :: ds =>
    if ds ≠ [] && ds.all Char.isDigit then some (digitsVal0 ds) else none
  | '-' :: ds =>
    if ds ≠ [] && ds.all Char.isDigit then some (-(digitsVal0 ds)) else none
  | ds => if ds.all Char.isDigit then some (digitsVal0 ds) else none

/-- Rust `str::split(sep)`: split on every occurrence of `sep`, keeping
empty pieces. -/
def splitCharAux (sep : Char) : List Char → List Char → List String
  | [], acc => [String.mk acc.reverse]
  | d :: rest, acc =>
    if d = sep then String.mk acc.reverse :: splitCharAux sep rest []
    else splitCharAux sep rest (d :: acc)

def splitChar (sep : Char) (s : String) : List String :=
  splitCharAux sep s.data []

/-- Rust `str::starts_with`. -/
def strStartsWith (s pre : String) : Bool :=
  pre.data.isPrefixOf s.data

/-- Rust `str::contains(char)`. -/
def strContains (s : String) (c : Char) : Bool :=
  s.data.any (fun d => d = c)

/-! ### The duplicated expiration pipeline

Every adapter repeats, verbatim, the following three pieces of code
(e.g. src/flexlm.rs lines 346-348 and 427-446 + 510-562, src/licman20.rs
lines 79-82 + 157-175 + 310-365, src/hasp.rs lines 87-89 + 279-294 +
298-353, src/rlm.rs, src/lmx.rs, src/olicense.rs, src/dsls.rs):

* while parsing, for each record push `expiration` onto `expiration_dates`
  and push the record onto `expiring` and onto
  `aggregated_expiration.entry(expiration.to_string()).or_insert(Vec::new())`;

* emit the per-feature expiration series by iterating `expiring` with an
  index starting at 1 (most adapters re-check the exclusion list here and
  increment the index only on emission);

* sort `expiration_dates`, `dedup_by(|a,b| a == b)`, and for each remaining
  value look it up in `aggregated_expiration`; on a hit emit one aggregated
  bucket (feature_count = group size, license_count = group sum) with an
  index starting at 0 that is incremented only on a hit.

The functions below embed this pipeline once, parameterised by the list of
parsed records in encounter order. -/

/-- The `aggregated_expiration` entry for key `d`: the records with that
exact instant, in encounter (push) order. -/
def aggEntry (rs : List ExpRec) (d : Inst) : List ExpRec :=
  rs.filter (fun r => r.inst = d)

/-- Lookup `aggregated_expiration.get(&exp_str)`: `some` exactly when some record
carries instant `d` (the map key exists iff an `entry(..).or_insert` created
it). -/
def aggFind (rs : List ExpRec) (d : Inst) : Option (List ExpRec) :=
  if aggEntry rs d = [] then none else some (aggEntry rs d)

/-- The `expiration_dates` list after `sort_by(partial_cmp)` and
`dedup_by(|a,b| a == b)`: sort, then drop consecutive duplicates. -/
def sortedDates (rs : List ExpRec) : List Inst :=
  ((rs.map (fun r => r.inst)).insertionSort (· ≤ ·)).destutter (fun a b => ¬ a = b)

/-- One emitted `*_feature_aggregate_expiration_seconds` sample. -/
structure Bucket where
  idx : Int
  featureCount : Int
  licenseCount : Int
  inst : Inst
deriving DecidableEq, Repr

/-- The aggregated-bucket emission loop: walk the sorted deduplicated dates,
look each up in `aggregated_expiration`, emit a bucket and advance the index
only on a hit. -/
def bucketsAux (rs : List ExpRec) : List Inst → Int → List Bucket
  | [], _ => []
  | d :: ds, i =>
    match aggFind rs d with
    | some v => ⟨i, v.length, (v.map (fun r => r.count)).sum, d⟩ :: bucketsAux rs ds (i + 1)
    | none => bucketsAux rs ds i

/-- All aggregated buckets emitted for one parse result (index starts at 0). -/
def buckets (rs : List ExpRec) : List Bucket :=
  bucketsAux rs (sortedDates rs) 0

/-- The per-feature expiration emission loop shared by the adapters that
re-check the exclusion list at this point (RLM, Licman20, HASP, DSLS, LM-X,
OLicense): skip excluded records, emit `(index, record)` and advance the
index otherwise.  The index starts at 1. -/
def emitExpAux (excl : Option (List String)) : List ExpRec → Int → List (Int × ExpRec)
  | [], _ => []
  | r :: rs, i =>
    if is_excluded excl r.feature then emitExpAux excl rs i
    else (i, r) :: emitExpAux excl rs (i + 1)

/-- Per-feature expiration emission with exclusion re-check, index from 1. -/
def emitExp (excl : Option (List String)) (rs : List ExpRec) : List (Int × ExpRec) :=
  emitExpAux excl rs 1

/-- FlexLM's per-feature expiration emission loop (src/flexlm.rs lines
510-533): identical, but with **no** exclusion check. -/
def flexlmEmitExpAux : List ExpRec → Int → List (Int × ExpRec)
  | [], _ => []
  | r :: rs, i => (i, r) :: flexlmEmitExpAux rs (i + 1)

/-- FlexLM per-feature expiration emission, index from 1, no filtering. -/
def flexlmEmitExp (rs : List ExpRec) : List (Int × ExpRec) :=
  flexlmEmitExpAux rs 1

/-- The integer index sequence `i, i+1, ..., i+n-1` carried by an emission
loop that starts at `i` and increments once per emitted sample. -/
def intRange (i : Int) : Nat → List Int
  | 0 => []
  | n + 1 => i :: intRange (i + 1) n

/-! ### Model of `chrono::NaiveDateTime::parse_from_str`

The adapters use two format strings: `"%d-%b-%Y %H:%M:%S"` (FlexLM, RLM,
Licman20 append `" 00:00:00"` to the raw date field first) and
`"%a %b %d, %Y %H:%M"` (HASP).  The model scans the input the way chrono
does: numeric fields consume 1 up to max-width digits, `%b`/`%a` consume a
three-letter case-insensitive name, a space in the format skips any run of
whitespace, other characters are literal, the whole input must be consumed,
and the resolved date is range-checked.  The timestamp is computed with the
standard days-from-civil formula (proleptic Gregorian calendar, matching
`NaiveDateTime::timestamp`).  Unlike chrono, the model does not check the
`%a` weekday name against the resolved date; no claim depends on that. -/

def digitsVal (cs : List Char) : Int := digitsVal0 cs

/-- Consume at most `max` characters satisfying `p` from the front. -/
def takeUpTo (p : Char → Bool) : Nat → List Char → List Char × List Char
  | 0, cs => ([], cs)
  | _ + 1, [] => ([], [])
  | m + 1, c :: cs =>
    if p c then
      let (a, b) := takeUpTo p m cs
      (c :: a, b)
    else ([], c :: cs)

/-- ASCII lower-casing (`String.toLower` is not kernel-evaluable). -/
def charLower (c : Char) : Char :=
  if 'A' ≤ c && c ≤ 'Z' then Char.ofNat (c.toNat + 32) else c

def strLower (s : String) : String := String.mk (s.data.map charLower)

/-- chrono `%b`: case-insensitive three-letter month abbreviation. -/
def monthFromAbbrev (s : String) : Option Int :=
  match strLower s with
  | "jan" => some 1
  | "feb" => some 2
  | "mar" => some 3
  | "apr" => some 4
  | "may" => some 5
  | "jun" => some 6
  | "jul" => some 7
  | "aug" => some 8
  | "sep" => some 9
  | "oct" => some 10
  | "nov" => some 11
  | "dec" => some 12
  | _ => none

/-- chrono `%a`: case-insensitive three-letter weekday abbreviation. -/
def isWeekdayAbbrev (s : String) : Bool :=
  match strLower s with
  | "sun" => true
  | "mon" => true
  | "tue" => true
  | "wed" => true
  | "thu" => true
  | "fri" => true
  | "sat" => true
  | _ => false

def isLeapYear (y : Int) : Bool :=
  (y % 4 = 0 && y % 100 ≠ 0) || y % 400 = 0

def daysInMonth (y m : Int) : Int :=
  if m = 2 then (if isLeapYear y then 29 else 28)
  else if m = 4 || m = 6 || m = 9 || m = 11 then 30
  else 31

/-- Days since 1970-01-01 of the proleptic Gregorian date `y-m-d`
(Howard Hinnant's days-from-civil algorithm, as used by chrono). -/
def daysFromCivil (y m d : Int) : Int :=
  let y2 := if m ≤ 2 then y - 1 else y
  let era := y2 / 400
  let yoe := y2 - era * 400
  let doy := (153 * (m + (if m > 2 then -3 else 9)) + 2) / 5 + d - 1
  let doe := yoe * 365 + yoe / 4 - yoe / 100 + doy
  era * 146097 + doe - 719468

def skipSpaces (cs : List Char) : List Char :=
  cs.dropWhile (fun c => c = ' ')

/-- Scan `1..max` digits; fail on zero digits. -/
def scanNum (max : Nat) (cs : List Char) : Option (Int × List Char) :=
  let (ds, rest) := takeUpTo Char.isDigit max cs
  if ds = [] then none else some (digitsVal ds, rest)

/-- Scan a literal character. -/
def scanLit (c : Char) (cs : List Char) : Option (List Char) :=
  match cs with
  | d :: rest => if d = c then some rest else none
  | [] => none

/-- Scan exactly three ASCII letters (a `%b` / `%a` name token). -/
def scanName3 (cs : List Char) : Option (String × List Char) :=
  match cs with
  | a :: b :: c :: rest =>
    if a.isAlpha && b.isAlpha && c.isAlpha then some (String.mk [a, b, c], rest)
    else none
  | _ => none

/-- Model of `NaiveDateTime::parse_from_str(s, "%d-%b-%Y %H:%M:%S")`,
returning the timestamp on success. -/
def parseDMYHMS (s : String) : Option Int :=
  match scanNum 2 s.data with
  | none => none
  | some (day, r1) =>
    match scanLit '-' r1 with
    | none => none
    | some r2 =>
      match scanName3 r2 with
      | none => none
      | some (mon, r3) =>
        match monthFromAbbrev mon with
        | none => none
        | some m =>
          match scanLit '-' r3 with
          | none => none
          | some r4 =>
            match scanNum 6 r4 with
            | none => none
            | some (year, r5) =>
              match scanNum 2 (skipSpaces r5) with
              | none => none
              | some (hh, r6) =>
                match scanLit ':' r6 with
                | none => none
                | some r7 =>
                  match scanNum 2 r7 with
                  | none => none
                  | some (mi, r8) =>
                    match scanLit ':' r8 with
                    | none => none
                    | some r9 =>
                      match scanNum 2 r9 with
                      | none => none
                      | some (ss, r10) =>
                        if r10 = [] && 1 ≤ day && day ≤ daysInMonth year m
                            && hh ≤ 23 && mi ≤ 59 && ss ≤ 59 then
                          some (daysFromCivil year m day * 86400
                            + hh * 3600 + mi * 60 + ss)
                        else none

/-- Model of `NaiveDateTime::parse_from_str(s, "%a %b %d, %Y %H:%M")`
(HASP), returning the timestamp on success. -/
def parseHaspDT (s : String) : Option Int :=
  match scanName3 s.data with
  | none => none
  | some (wd, r1) =>
    if ¬ isWeekdayAbbrev wd then none else
    match scanName3 (skipSpaces r1) with
    | none => none
    | some (mon, r2) =>
      match monthFromAbbrev mon with
      | none => none
      | some m =>
        match scanNum 2 (skipSpaces r2) with
        | none => none
        | some (day, r3) =>
          match scanLit ',' r3 with
          | none => none
          | some r4 =>
            match scanNum 6 (skipSpaces r4) with
            | none => none
            | some (year, r5) =>
              match scanNum 2 (skipSpaces r5) with
              | none => none
              | some (hh, r6) =>
                match scanLit ':' r6 with
                | none => none
                | some r7 =>
                  match scanNum 2 r7 with
                  | none => none
                  | some (mi, r8) =>
                    if r8 = [] && 1 ≤ day && day ≤ daysInMonth year m
                        && hh ≤ 23 && mi ≤ 59 then
                      some (daysFromCivil year m day * 86400 + hh * 3600 + mi * 60)
                    else none

/-! ### FlexLM adapter (src/flexlm.rs)

`fetch` classifies each stdout line of `lmutil lmstat -c ... -a` with six
regexes tried in order; `fetch_expiration` classifies each stdout line of
`lmutil lmstat -c ... -i` with two.  A constructor below carries the capture
groups of the regex named in its comment; `other` is a line matching none.
Rust `str::parse::<i64>` is modelled by `parseI64`. -/

inductive FlexLine
  /-- `RE_LMSTAT_USAGE`:
  `^Users of ([a-zA-Z0-9_\-+]+):\s+\(Total of (\d+) license[s]? issued;\s+Total of (\d+) license[s]? in use\)$` -/
  | usage (feature total used : String)
  /-- `RE_LMSTAT_USERS_SINGLE_LICENSE`:
  `^\s+(\w+) [\w.\-_]+\s+[\w/]+\s+\(([\w\-.]+)\).*, start [A-Z][a-z][a-z] \d+/\d+ \d+:\d+$` -/
  | userSingle (user version : String)
  /-- `RE_LMSTAT_USERS_MULTI_LICENSE`:
  `^\s+(\w+) [\w.\-_]+\s+[a-zA-Z0-9/]+\s+\(([\w.\-_]+)\)\s+\([\w./\s]+\),\s+start [A-Z][a-z][a-z] \d+/\d+ \d+:\d+,\s+(\d+) licenses$` -/
  | userMulti (user version count : String)
  /-- `RE_LMSTAT_LICENSE_SERVER_STATUS`: `^License server status:\s+([\w.\-@,]+)$` -/
  | serverList (servers : String)
  /-- `RE_LMSTAT_SERVER_STATUS`: `([\w.\-]+):\s+license server (\w+)\s+(\(MASTER\))?\s*([\w.]+)` -/
  | serverStatus (server status master version : String)
  /-- `RE_LMSTAT_VENDOR_STATUS`: `\s+(\w+):\s+(\w+)\s+([\w.]+)$` -/
  | vendorStatus (vendor status version : String)
  | other
deriving DecidableEq, Repr

/-- One cell of the nested `fuv` map
`feature -> user -> version -> count` that FlexLM/RLM/LM-X accumulate
checkouts into. -/
structure FuvEntry where
  feature : String
  user : String
  version : String
  count : Int
deriving DecidableEq, Repr

/-- Model of `*fuv.entry(f).or_insert(..).entry(u).or_insert(..).entry(v).or_insert(0) += c`:
bump the nested-map cell, creating it at 0 first if absent.  The model keeps
cells in first-insertion order; HashMap iteration order is unspecified in
the source, and only the set of cells matters for the claims. -/
def bumpFuv (m : List FuvEntry) (f u v : String) (c : Int) : List FuvEntry :=
  if m.any (fun e => e.feature = f && e.user = u && e.version = v) then
    m.map (fun e =>
      if e.feature = f && e.user = u && e.version = v then
        { e with count := e.count + c }
      else e)
  else m ++ [⟨f, u, v, c⟩]

/-- Mutable state of the FlexLM `fetch` line loop: the carried current
feature (flexlm.rs line 120), the nested checkout map, the usage samples
emitted so far (pairs set on `FLEXLM_FEATURES_TOTAL` / `FLEXLM_FEATURES_USED`),
and the last `License server status:` payload. -/
structure FlexState where
  feature : String
  fuv : List FuvEntry
  usage : List (String × Int × Int)
  licenseServer : String
deriving DecidableEq, Repr

/-- One iteration of the FlexLM `fetch` line loop (flexlm.rs lines 121-282). -/
def flexlmStep (excl : Option (List String)) (st : FlexState) : FlexLine → FlexState
  | .usage f t u =>
    -- `feature` is assigned (line 135) before the exclusion check (line 139),
    -- so an excluded feature still becomes the carried feature.
    let st := { st with feature := f }
    if is_excluded excl f then st
    else
      match parseI64 t, parseI64 u with
      | some tv, some uv => { st with usage := st.usage ++ [(f, tv, uv)] }
      | _, _ => st
  | .userSingle u v => { st with fuv := bumpFuv st.fuv st.feature u v 1 }
  | .userMulti u v c =>
    match parseI64 c with
    | some cv => { st with fuv := bumpFuv st.fuv st.feature u v cv }
    | none => st
  | .serverList s => { st with licenseServer := s }
  | .serverStatus _ _ _ _ => st
  | .vendorStatus _ _ _ => st
  | .other => st

/-- The FlexLM `fetch` line loop over the whole transcript. -/
def flexlmFetch (excl : Option (List String)) (lines : List FlexLine) : FlexState :=
  lines.foldl (flexlmStep excl) ⟨"", [], [], ""⟩

/-- The per-user samples set on `FLEXLM_FEATURES_USER` (flexlm.rs lines
316-330) when `export_user` is configured: every cell of `fuv`, with **no**
exclusion check. -/
def flexlmUserEmissions (st : FlexState) : List FuvEntry := st.fuv

/-- FlexLM expiration lines (`lmutil lmstat -i` output). -/
inductive FlexExpLine
  /-- `RE_LMSTAT_EXPIRATION`: `^([\w\-+]+)\s+([\d.]+)\s+(\d+)\s+([\w-]+)\s+(\w+)$`
  (groups: feature, version, count, expiration, vendor). -/
  | exp (feature version count expiration vendor : String)
  /-- `RE_LMSTAT_ALTERNATIVE_EXPIRATION`: `^([\w\-+]+)\s+([\d.]+)\s+(\d+)\s+(\w+)\s+([\w-]+)$`
  (groups: feature, version, count, vendor, expiration). -/
  | altExp (feature version count vendor expiration : String)
  | other
deriving DecidableEq, Repr

/-- FlexLM's expiration-string interpretation (flexlm.rs lines 407-423 and
468-484): `"1-jan-0"`, `"01-jan-0000"` and any string starting with
`"permanent"` mean `f64::INFINITY`; anything else is date-parsed with
`"%d-%b-%Y %H:%M:%S"` after appending `" 00:00:00"`, and a parse failure
drops the record. -/
def flexlmExpirationOf (s : String) : Option Inst :=
  if s = "1-jan-0" || s = "01-jan-0000" || strStartsWith s "permanent" then some ⊤
  else (parseDMYHMS (s ++ " 00:00:00")).map (fun t => (t : Int))

/-- One iteration of the FlexLM `fetch_expiration` line loop (flexlm.rs
lines 385-508); both grammars feed the same record pipeline. -/
def flexlmExpStep (rs : List ExpRec) : FlexExpLine → List ExpRec
  | .exp f _ c e _ =>
    (match parseI64 c with
     | none => rs
     | some cv =>
       match flexlmExpirationOf e with
       | none => rs
       | some inst => rs ++ [⟨f, cv, inst⟩])
  | .altExp f _ c _ e =>
    (match parseI64 c with
     | none => rs
     | some cv =>
       match flexlmExpirationOf e with
       | none => rs
       | some inst => rs ++ [⟨f, cv, inst⟩])
  | .other => rs

/-- The records parsed by `fetch_expiration`, in encounter order.  There is
**no** exclusion check anywhere in `fetch_expiration`. -/
def flexlmParseExp (lines : List FlexExpLine) : List ExpRec :=
  lines.foldl flexlmExpStep []

/-! ### RLM adapter (src/rlm.rs, `fetch`, lines 64-343) -/

inductive RlmLine
  /-- `RE_RLM_FEATURE_VERSION`: `^\s+([\w\-.]+)\s([\w.]+)$` -/
  | featVer (feature version : String)
  /-- `RE_RLM_USAGE`: `^\s+count:\s+(\d+),\s+# reservations:\s+(\d+),\s+inuse:\s+(\d+), exp:\s+([\w\-]+)` -/
  | usage (total reserved used exp : String)
  | other
deriving DecidableEq, Repr

/-- RLM's expiration-string interpretation (rlm.rs lines 187-200): only the
exact string `"permanent"` means `f64::INFINITY`; anything else — including
`"Perpetual"` and `"1-jan-0"` — is date-parsed with `"%d-%b-%Y %H:%M:%S"`
after appending `" 00:00:00"`, and a parse failure drops the record. -/
def rlmExpirationOf (s : String) : Option Inst :=
  if s = "permanent" then some ⊤
  else (parseDMYHMS (s ++ " 00:00:00")).map (fun t => (t : Int))

structure RlmState where
  feature : String
  version : String
  recs : List ExpRec
  usage : List (String × String × Int × Int)
deriving DecidableEq, Repr

/-- One iteration of the RLM `fetch` line loop (rlm.rs lines 117-262).  An
excluded feature resets the carried feature to `""` (line 138), which makes
the usage branch skip its lines (line 143), so excluded features never reach
the record list. -/
def rlmStep (excl : Option (List String)) (st : RlmState) : RlmLine → RlmState
  | .featVer f v =>
    if is_excluded excl f then { st with feature := "", version := v }
    else { st with feature := f, version := v }
  | .usage t r u e =>
    if st.feature = "" then st
    else
      match parseI64 t, parseI64 r, parseI64 u with
      | some tv, some _, some uv =>
        (match rlmExpirationOf e with
         | none => st
         | some inst =>
           { st with recs := st.recs ++ [⟨st.feature, tv, inst⟩],
                     usage := st.usage ++ [(st.feature, st.version, tv, uv)] })
      | _, _, _ => st
  | .other => st

def rlmFetch (excl : Option (List String)) (lines : List RlmLine) : RlmState :=
  lines.foldl (rlmStep excl) ⟨"", "", [], []⟩

/-! ### Licman20 adapter (src/licman20.rs, `fetch`, lines 68-379) -/

inductive L20Line
  /-- `RE_LICMAN20_PRODUCT_KEY`: `^Product key\s+:\s+(\d+)$` -/
  | productKey (k : String)
  /-- `RE_LICMAN20_FEATURE`: `^Comment\s+:\s+(\w+)$` (the feature name). -/
  | comment (f : String)
  /-- `RE_LICMAN20_TOTAL_LICENSES`: `^Number of Licenses\s+:\s+(\d+)$` -/
  | totalLine (n : String)
  /-- `RE_LICMAN20_USED_LICENSES`: `^In use\s+:\s+(\d+)$` -/
  | usedLine (n : String)
  /-- `RE_LICMAN20_END_DATE`: `^End date\s+:\s+([\w\-]+)$` -/
  | endDate (d : String)
  | other
deriving DecidableEq, Repr

/-- Mutable state of the Licman20 line loop: the carried record fields
(licman20.rs lines 124-128; `expiration` starts at `0.0`), the `licenses`
list and the expiration-record list. -/
structure L20State where
  product_key : String
  feature : String
  total : Int
  used : Int
  expiration : Inst
  licenses : List (String × String × Int × Int)
  recs : List ExpRec
deriving DecidableEq, Repr

/-- Flush the carried record (licman20.rs lines 148-178 and 256-286): push
onto `licenses` and — with **no** exclusion check — onto the expiration
pipeline (`expiring`, `expiration_dates`, `aggregated_expiration`), with
`license_count = total`. -/
def l20Flush (st : L20State) : L20State :=
  if st.product_key = "" then st
  else
    { st with
      licenses := st.licenses ++ [(st.product_key, st.feature, st.total, st.used)],
      recs := st.recs ++ [⟨st.feature, st.total, st.expiration⟩] }

/-- One iteration of the Licman20 line loop (licman20.rs lines 130-254).
Note that `"Product key"` flushes the previous record, and that an
unparsable end date leaves the carried `expiration` unchanged. -/
def l20Step (st : L20State) : L20Line → L20State
  | .productKey k =>
    let st := l20Flush st
    { st with product_key := k }
  | .comment f => { st with feature := f }
  | .totalLine n =>
    (match parseI64 n with
     | some v => { st with total := v }
     | none => st)
  | .usedLine n =>
    (match parseI64 n with
     | some v => { st with used := v }
     | none => st)
  | .endDate d =>
    (match parseDMYHMS (d ++ " 00:00:00") with
     | some t => { st with expiration := (t : Int) }
     | none => st)
  | .other => st

/-- The Licman20 line loop plus the final flush (licman20.rs line 257). -/
def l20Fetch (lines : List L20Line) : L20State :=
  l20Flush (lines.foldl l20Step ⟨"", "", 0, 0, (0 : Int), [], []⟩)

/-- The `licman20_feature_issued`/`..._used` emission loop (licman20.rs
lines 288-308): `licenses` filtered by the exclusion list. -/
def l20TotalsEmissions (excl : Option (List String)) (st : L20State) :
    List (String × String × Int × Int) :=
  st.licenses.filter (fun l => ¬ is_excluded excl l.2.1)

/-! ### HASP adapter (src/hasp.rs) -/

/-- The deserialized fields of one entry of the feature array
(`struct HaspFeature`, hasp.rs lines 56-64; `fname` is the JSON field
named `fn`). -/
structure HaspFeature where
  fid : Option String
  fname : Option String
  lic : Option String
  logc : Option String
  logl : Option String
deriving DecidableEq, Repr

/-- The `\w` class of the Rust regex crate, restricted to ASCII (the transcripts are
ASCII). -/
def wordChar (c : Char) : Bool := c.isAlphanum || c = '_'

/-- Match `\w{3} \w{3} \d+, \d+ \d+:\d+` at the head of `cs`, returning the
matched text. -/
def haspPatAt (cs : List Char) : Option String :=
  match cs with
  | a :: b :: c :: ' ' :: d :: e :: f :: ' ' :: rest =>
    if wordChar a && wordChar b && wordChar c && wordChar d && wordChar e && wordChar f then
      let d1 := rest.takeWhile Char.isDigit
      let r1 := rest.dropWhile Char.isDigit
      if d1 = [] then none else
      match r1 with
      | ',' :: ' ' :: r2 =>
        let d2 := r2.takeWhile Char.isDigit
        let r3 := r2.dropWhile Char.isDigit
        if d2 = [] then none else
        match r3 with
        | ' ' :: r4 =>
          let d3 := r4.takeWhile Char.isDigit
          let r5 := r4.dropWhile Char.isDigit
          if d3 = [] then none else
          match r5 with
          | ':' :: r6 =>
            let d4 := r6.takeWhile Char.isDigit
            if d4 = [] then none
            else some (String.mk ([a, b, c, ' ', d, e, f, ' '] ++ d1 ++ [',', ' ']
              ++ d2 ++ [' '] ++ d3 ++ [':'] ++ d4))
          | _ => none
        | _ => none
      | _ => none
    else none
  | _ => none

/-- Model of `RE_HASP_EXPIRATION` = `^.*(\w{3} \w{3} \d+, \d+ \d+:\d+).*$`
(hasp.rs lines 82-83): the greedy leading `.*` makes the capture the
**last** occurrence of the pattern in the line. -/
def haspCaptureGo : List Char → Option String → Option String
  | [], acc => acc
  | c :: rest, acc =>
    haspCaptureGo rest (match haspPatAt (c :: rest) with
                        | some m => some m
                        | none => acc)

def haspCapture (s : String) : Option String :=
  haspCaptureGo s.data none

/-- The HASP feature loop of `fetch` (hasp.rs lines 152-296), accumulating
the usage samples `(fname, logl, logc)` set on `HASP_FEATURES_TOTAL` /
`HASP_FEATURES_USED` and the expiration records.  A missing or unparsable
mandatory field aborts the whole loop with `bail!`, which `fetch` returns
as its error. -/
def haspProcess (excl : Option (List String)) :
    List HaspFeature → List (String × Int × Int) → List ExpRec →
      Except String (List (String × Int × Int) × List ExpRec)
  | [], us, rs => .ok (us, rs)
  | f :: fs, us, rs =>
    match f.fid with
    | none => haspProcess excl fs us rs
    | some fid =>
      if is_excluded excl fid then haspProcess excl fs us rs
      else
        let fname :=
          match f.fname with
          | some v => if v = "" then fid else v
          | none => fid
        match f.logc with
        | none => .error ("Feature with id " ++ fid ++ " found without logc field")
        | some logcs =>
          match parseI64 logcs with
          | none => .error ("cannot convert " ++ logcs ++ " to an integer")
          | some logc =>
            match f.logl with
            | none => .error ("Feature with id " ++ fid ++ " found without logl field")
            | some logls =>
              match parseI64 logls with
              | none => .error ("cannot convert " ++ logls ++ " to an integer")
              | some logl =>
                let us := us ++ [(fname, logl, logc)]
                match f.lic with
                | none => .error ("Feature with id " ++ fid ++ " found without lic field")
                | some lic =>
                  if lic = "" then haspProcess excl fs us rs
                  else if lic = "Perpetual" then
                    haspProcess excl fs us (rs ++ [⟨fname, logl, (⊤ : Inst)⟩])
                  else
                    match haspCapture lic with
                    | none => .error ("cannot parse HASP license expiration from " ++ lic)
                    | some cap =>
                      match parseHaspDT cap with
                      | none => haspProcess excl fs us rs
                      | some t => haspProcess excl fs us (rs ++ [⟨fname, logl, (t : Int)⟩])

/-! ### HASP `massage` (hasp.rs lines 501-510) and JSON decoding -/

/-- Scan for the first `*/`, returning the characters after it. -/
def splitAtClose : List Char → Option (List Char)
  | [] => none
  | [_] => none
  | a :: b :: rest =>
    if a = '*' && b = '/' then some rest else splitAtClose (b :: rest)

/-- Model of `RE_C_STYLE_COMMENT.replace_all` with pattern `/\\*.*?\\*/` on input
without line breaks: scan left to right; at `/*`, drop everything up to and
including the nearest `*/` (non-greedy); an unclosed `/*` matches nothing
and is kept.  The fuel argument only bounds the recursion; every step
consumes at least one character, so `cs.length` fuel is always enough. -/
def stripCommentsFuel : Nat → List Char → List Char
  | 0, cs => cs
  | _ + 1, [] => []
  | fuel + 1, '/' :: '*' :: rest =>
    (match splitAtClose rest with
     | some r => stripCommentsFuel fuel r
     | none => '/' :: stripCommentsFuel fuel ('*' :: rest))
  | fuel + 1, c :: rest => c :: stripCommentsFuel fuel rest

def stripComments (cs : List Char) : List Char :=
  stripCommentsFuel cs.length cs

/-- Model of `massage` (hasp.rs lines 501-510): delete every `'\r'`, delete every
`'\n'`, delete the C-style comments, then wrap in `"[ "` and `" ]"`. -/
def massage (b0rken : String) : String :=
  let noCr := b0rken.data.filter (fun c => ¬ c = '\r')
  let noLf := noCr.filter (fun c => ¬ c = '\n')
  "[ " ++ String.mk (stripComments noLf) ++ " ]"

/-- JSON values as far as the HASP transcripts need them.  Model of the
grammar `serde_json::from_str` accepts on inputs made of strings, objects
and arrays (no escapes occur in the modelled inputs). -/
inductive Json
  | str (s : String)
  | obj (fields : List (String × Json))
  | arr (elems : List Json)
deriving Repr, BEq

def skipWs (cs : List Char) : List Char :=
  cs.dropWhile (fun c => c = ' ' || c = '\t' || c = '\n' || c = '\r')

/-- Read a string body up to the closing quote (the opening quote is already
consumed); no escape handling. -/
def scanJStr (cs : List Char) : Option (String × List Char) :=
  let content := cs.takeWhile (fun c => ¬ c = '"')
  match cs.dropWhile (fun c => ¬ c = '"') with
  | '"' :: r => some (String.mk content, r)
  | _ => none

mutual

def parseJVal : Nat → List Char → Option (Json × List Char)
  | 0, _ => none
  | fuel + 1, cs =>
    match skipWs cs with
    | '"' :: r =>
      (match scanJStr r with
       | some (s, r2) => some (.str s, r2)
       | none => none)
    | '\x7b' :: r =>
      (match skipWs r with
       | '\x7d' :: r2 => some (.obj [], r2)
       | r1 => parseJObjRest fuel r1 [])
    | '[' :: r =>
      (match skipWs r with
       | ']' :: r2 => some (.arr [], r2)
       | r1 => parseJArrRest fuel r1 [])
    | _ => none

def parseJObjRest : Nat → List Char → List (String × Json) → Option (Json × List Char)
  | 0, _, _ => none
  | fuel + 1, cs, acc =>
    match skipWs cs with
    | '"' :: r =>
      (match scanJStr r with
       | none => none
       | some (k, r2) =>
         match skipWs r2 with
         | ':' :: r3 =>
           (match parseJVal fuel r3 with
            | none => none
            | some (v, r4) =>
              match skipWs r4 with
              | ',' :: r5 => parseJObjRest fuel r5 (acc ++ [(k, v)])
              | '\x7d' :: r5 => some (.obj (acc ++ [(k, v)]), r5)
              | _ => none)
         | _ => none)
    | _ => none

def parseJArrRest : Nat → List Char → List Json → Option (Json × List Char)
  | 0, _, _ => none
  | fuel + 1, cs, acc =>
    match parseJVal fuel cs with
    | none => none
    | some (v, r) =>
      match skipWs r with
      | ',' :: r2 => parseJArrRest fuel r2 (acc ++ [v])
      | ']' :: r2 => some (.arr (acc ++ [v]), r2)
      | _ => none

end

/-- Decode a complete JSON document (model of `serde_json::from_str`). -/
def decodeJson (s : String) : Option Json :=
  match parseJVal (2 * s.length + 2) s.data with
  | some (v, r) => if skipWs r = [] then some v else none
  | none => none

/-! ### LM-X adapter (src/lmx.rs) -/

/-- Model of `struct LmxLicenseFeatures` (lmx.rs lines 90-115); checkouts are
`(user, used)` pairs from nested `USER` elements. -/
structure LmxFeature where
  feature : String
  version : String
  vendor : String
  expiration_str : String
  used : Int
  total : Int
  denied : Int
  checkouts : List (String × Int)
deriving DecidableEq, Repr

/-- Model of `struct LmxLicenseData` (lmx.rs lines 73-88). -/
structure LmxData where
  server_version : String
  server_status : String
  features : List LmxFeature
deriving DecidableEq, Repr

/-- The quick-xml events `parse_xml` reacts to (lmx.rs lines 427-558):
`Start`/`Empty` elements with their attribute list, end tags, text (both
ignored by LM-X), in document order; `Eof` is the end of the list. -/
inductive XmlEvent
  | start (tag : String) (attrs : List (String × String))
  | close (tag : String)
  | text (s : String)
deriving DecidableEq, Repr

/-- Parser state of `parse_xml`: the result under construction, the
`feature` variable being filled, and `_fname` (lmx.rs lines 417-421). -/
structure LmxParseState where
  result : LmxData
  feature : LmxFeature
  fname : String
deriving DecidableEq, Repr

/-- The local `feature_*` variables of the `FEATURE` branch
(lmx.rs lines 458-464). -/
structure LmxLocals where
  name : String
  version : String
  expiration : String
  vendor : String
  used : Int
  total : Int
  denied : Int
deriving DecidableEq, Repr

/-- The attribute loop of the `FEATURE` branch (lmx.rs lines 466-506).  On a
`NAME` attribute, the **previous** feature record is pushed if `_fname` is
non-empty; numeric attributes propagate `value.parse()?` failures as
errors. -/
def lmxFeatAttrOne (a : String × String) (st : LmxParseState) (loc : LmxLocals) :
    Except String (LmxParseState × LmxLocals) :=
  if a.1 = "NAME" then
    let st2 :=
      if ¬ st.fname = "" then
        { st with result := { st.result with features := st.result.features ++ [st.feature] } }
      else st
    .ok ({ st2 with fname := a.2 }, { loc with name := a.2 })
  else if a.1 = "VERSION" then .ok (st, { loc with version := a.2 })
  else if a.1 = "VENDOR" then .ok (st, { loc with vendor := a.2 })
  else if a.1 = "END" then .ok (st, { loc with expiration := a.2 })
  else if a.1 = "USED_LICENSES" then
    match parseI64 a.2 with
    | some n => .ok (st, { loc with used := n })
    | none => .error ("cannot parse " ++ a.2)
  else if a.1 = "TOTAL_LICENSES" then
    match parseI64 a.2 with
    | some n => .ok (st, { loc with total := n })
    | none => .error ("cannot parse " ++ a.2)
  else if a.1 = "DENIED_LICENSES" then
    match parseI64 a.2 with
    | some n => .ok (st, { loc with denied := n })
    | none => .error ("cannot parse " ++ a.2)
  else .ok (st, loc)

def lmxFeatAttrs : List (String × String) → LmxParseState → LmxLocals →
    Except String (LmxParseState × LmxLocals)
  | [], st, loc => .ok (st, loc)
  | a :: rest, st, loc =>
    match lmxFeatAttrOne a st loc with
    | .error e => .error e
    | .ok (st2, loc2) => lmxFeatAttrs rest st2 loc2

/-- The attribute loop of the `USER` branch (lmx.rs lines 519-547). -/
def lmxUserAttrs : List (String × String) → (String × Int) →
    Except String (String × Int)
  | [], acc => .ok acc
  | (k, v) :: rest, (user, used) =>
    if k = "NAME" then lmxUserAttrs rest (v, used)
    else if k = "USED_LICENSES" then
      match parseI64 v with
      | some n => lmxUserAttrs rest (user, n)
      | none => .error ("cannot parse " ++ v)
    else lmxUserAttrs rest (user, used)

/-- The attribute loop of the `LICENSE_PATH` branch (lmx.rs lines 433-455). -/
def lmxPathAttrs (attrs : List (String × String)) (d : LmxData) : LmxData :=
  attrs.foldl (fun d (kv : String × String) =>
    if kv.1 = "SERVER_VERSION" then { d with server_version := kv.2 }
    else if kv.1 = "STATUS" then { d with server_status := kv.2 }
    else d) d

/-- One `parse_xml` event (lmx.rs lines 427-558).  After the `FEATURE`
attribute loop, `feature` is replaced wholesale from the locals with empty
checkouts (lines 507-516); a `USER` element pushes onto the current
feature's checkouts; end tags and text are ignored; there is **no** flush at
`Eof`. -/
def lmxEventStep (st : LmxParseState) : XmlEvent → Except String LmxParseState
  | .start tag attrs =>
    if tag = "LICENSE_PATH" then
      .ok { st with result := lmxPathAttrs attrs st.result }
    else if tag = "FEATURE" then
      match lmxFeatAttrs attrs st ⟨"", "", "", "", 0, 0, 0⟩ with
      | .error e => .error e
      | .ok (st2, loc) =>
        .ok { st2 with feature :=
          ⟨loc.name, loc.version, loc.vendor, loc.expiration, loc.used, loc.total,
            loc.denied, []⟩ }
    else if tag = "USER" then
      match lmxUserAttrs attrs ("", 0) with
      | .error e => .error e
      | .ok (user, used) =>
        .ok { st with feature :=
          { st.feature with checkouts := st.feature.checkouts ++ [(user, used)] } }
    else .ok st
  | .close _ => .ok st
  | .text _ => .ok st

def lmxParseLoop : List XmlEvent → LmxParseState → Except String LmxParseState
  | [], st => .ok st
  | e :: es, st =>
    match lmxEventStep st e with
    | .error msg => .error msg
    | .ok st2 => lmxParseLoop es st2

/-- Model of `parse_xml` (lmx.rs lines 416-561): fold the events from the empty
state and return `result` at `Eof` — without pushing the feature still held
in `feature`. -/
def lmxParseXml (evs : List XmlEvent) : Except String LmxData :=
  match lmxParseLoop evs ⟨⟨"", "", []⟩, ⟨"", "", "", "", 0, 0, 0, []⟩, ""⟩ with
  | .error e => .error e
  | .ok st => .ok st.result

/-! ### Endpoint maps and HA loops (src/lmx.rs lines 129-150 + 179-247,
src/olicense.rs lines 140-161 + 166-224) -/

/-- Model of `HashMap::insert`: replace the value under an existing key, otherwise
add the entry.  The model keeps entries in first-insertion order; the order
is never observed, because iteration order is taken as a parameter. -/
def insertAssoc (m : List (String × String)) (k v : String) : List (String × String) :=
  if m.any (fun p => p.1 = k) then m.map (fun p => if p.1 = k then (k, v) else p)
  else m ++ [(k, v)]

/-- The `server_port` map built from the colon-separated `license` string
(lmx.rs lines 129-150, olicense.rs lines 140-161): each entry is
`port@server` or a bare server that gets the backend's default port. -/
def serverMapOf (license : String) (defPort : String) : List (String × String) :=
  (splitChar ':' license).foldl
    (fun m lserver =>
      if strContains lserver '@' then
        let parts := splitChar '@' lserver
        insertAssoc m (parts.getD 1 "") (parts.getD 0 "")
      else insertAssoc m lserver defPort)
    []

/-- The `(server, port)` pairs in the order they appear in the configured
`license` string (before the `HashMap` collapses and reorders them). -/
def configuredEndpoints (license : String) (defPort : String) :
    List (String × String) :=
  (splitChar ':' license).map (fun lserver =>
    if strContains lserver '@' then
      let parts := splitChar '@' lserver
      (parts.getD 1 "", parts.getD 0 "")
    else (lserver, defPort))

/-- The LM-X endpoint loop (`for (server, port) in server_port`, lmx.rs
lines 179-411), over a given iteration order `ord` of the map and a
transport/parse oracle: `.error` models a failed `lmxendutil` invocation or
XML parse (which `bail!`s out of the whole fetch via `?`), `.ok s` yields
the parsed `server_status` attribute.  Returns the
`lmx_server_status` samples `(server, port, 0/1)` in emission order, and
the endpoint whose payload was used for the one-time feature/usage export
(the `features_exported` flag). -/
def lmxLoop (resp : String → String → Except Unit String) :
    List (String × String) → List (String × String × Int) →
      Option (String × String) →
        Except Unit (List (String × String × Int) × Option (String × String))
  | [], sts, usedFrom => .ok (sts, usedFrom)
  | (server, port) :: rest, sts, usedFrom =>
    match resp server port with
    | .error e => .error e
    | .ok statusStr =>
      let healthy := statusStr = "SUCCESS"
      let sts := sts ++ [(server, port, if healthy then 1 else 0)]
      if healthy then
        match usedFrom with
        | none => lmxLoop resp rest sts (some (server, port))
        | some u => lmxLoop resp rest sts (some u)
      else lmxLoop resp rest sts usedFrom

/-- The OLicense endpoint loop (olicense.rs lines 166-370): an HTTP or
XML-parse failure only records status 0 for that endpoint and continues;
a success records status 1; the feature/usage payload is exported from the
first successful endpoint only (`features_exported`). -/
def olicenseLoop (resp : String → String → Option String) :
    List (String × String) → List (String × String × Int) →
      Option (String × String) →
        List (String × String × Int) × Option (String × String)
  | [], sts, usedFrom => (sts, usedFrom)
  | (server, port) :: rest, sts, usedFrom =>
    match resp server port with
    | none => olicenseLoop resp rest (sts ++ [(server, port, 0)]) usedFrom
    | some _ =>
      let sts := sts ++ [(server, port, 1)]
      match usedFrom with
      | none => olicenseLoop resp rest sts (some (server, port))
      | some u => olicenseLoop resp rest sts (some u)

/-! ### DSLS adapter (src/dsls.rs) -/

/-- Model of `struct DslsLicenseUsage` (dsls.rs lines 55-61). -/
structure DslsLicenseUsage where
  feature : String
  count : Int
  inuse : Int
  user : Option String
deriving DecidableEq, Repr

/-- Model of `extract_data` (dsls.rs lines 285-314): split the CSV line on `','`;
fewer than 13 fields, or a `Count` (index 11) or `Inuse` (index 12) field
that does not parse as an integer, is an error — which the caller
propagates with `?`. -/
def extract_data (line : String) : Except String DslsLicenseUsage :=
  let splitted := splitChar ',' line
  if splitted.length < 13 then
    .error "Invalid DSLS license usage data - expected at least 13 fields"
  else
    match parseI64 (splitted.getD 11 "") with
    | none => .error ("cannot parse " ++ splitted.getD 11 "" ++ " as integer")
    | some count =>
      match parseI64 (splitted.getD 12 "") with
      | none => .error ("cannot parse " ++ splitted.getD 12 "" ++ " as integer")
      | some inuse =>
        let user := if splitted.length < 17 then none else some (splitted.getD 16 "")
        .ok ⟨splitted.getD 2 "", count, inuse, user⟩

/-- Match `RE_DSLS_VERSION` = `^\s+Software version:\s+([\d.\-]+)$`,
returning the capture. -/
def dslsVersionCapture (s : String) : Option String :=
  let cs := s.data
  let ws := cs.takeWhile Char.isWhitespace
  let r0 := cs.dropWhile Char.isWhitespace
  if ws = [] then none else
  if r0.take 17 = "Software version:".data then
    let r1 := r0.drop 17
    let ws2 := r1.takeWhile Char.isWhitespace
    let r2 := r1.dropWhile Char.isWhitespace
    if ws2 = [] then none else
    if r2 ≠ [] && r2.all (fun c => c.isDigit || c = '.' || c = '-') then
      some (String.mk r2)
    else none
  else none

/-- Match `RE_DSLS_STATUS` = `^\s+Ready:\s+(\w+).*$`, returning the
capture. -/
def dslsStatusCapture (s : String) : Option String :=
  let cs := s.data
  let ws := cs.takeWhile Char.isWhitespace
  let r0 := cs.dropWhile Char.isWhitespace
  if ws = [] then none else
  if r0.take 6 = "Ready:".data then
    let r1 := r0.drop 6
    let ws2 := r1.takeWhile Char.isWhitespace
    let r2 := r1.dropWhile Char.isWhitespace
    if ws2 = [] then none else
    let w := r2.takeWhile wordChar
    if w = [] then none else some (String.mk w)
  else none

/-- State of the DSLS `fetch` line loop for one server's transcript
(dsls.rs lines 95-97 and 133-189).  `stopped` models the `break` taken when
a `Ready:` line is seen after features were already exported. -/
structure DslsScanState where
  csvMode : Bool
  featuresExported : Bool
  version : Option String
  status : Option Int
  data : List DslsLicenseUsage
  stopped : Bool
deriving DecidableEq, Repr

/-- One line of the DSLS `fetch` loop (dsls.rs lines 134-189).  In CSV mode
a non-header line goes through `extract_data(line)?` — a malformed line
therefore aborts the whole fetch with an error. -/
def dslsLineStep (st : DslsScanState) (line : String) : Except String DslsScanState :=
  if st.stopped then .ok st
  else
    match dslsVersionCapture line with
    | some v => .ok { st with version := some v }
    | none =>
      match dslsStatusCapture line with
      | some w =>
        let st := { st with status := some (if w = "yes" then 1 else 0) }
        if st.featuresExported then .ok { st with stopped := true } else .ok st
      | none =>
        if line = "admin >getLicenseUsage -csv" then .ok { st with csvMode := true }
        else if line = "admin >quit" then
          .ok { st with featuresExported := true, csvMode := false }
        else if st.csvMode then
          if strStartsWith line "Editor," then .ok st
          else
            match extract_data line with
            | .error e => .error e
            | .ok d => .ok { st with data := st.data ++ [d] }
        else .ok st

/-- The DSLS `fetch` line loop over one server's transcript; the `?` on
`extract_data` makes the first malformed CSV record abort the loop, and
`fetch` returns that error. -/
def dslsScan : List String → DslsScanState → Except String DslsScanState
  | [], st => .ok st
  | l :: ls, st =>
    match dslsLineStep st l with
    | .error e => .error e
    | .ok st2 => dslsScan ls st2

def dslsScanInit : DslsScanState := ⟨false, false, none, none, [], false⟩

/-! ### C10 infrastructure: the flush-on-NAME behaviour of `parse_xml` -/

/-- The `NAME` attribute values of an attribute list. -/
def featureNameCaptures (attrs : List (String × String)) : List String :=
  (attrs.filter (fun a => a.1 = "NAME")).map (fun a => a.2)

/-- The `NAME` values of the `FEATURE` elements of a document, in document
order. -/
def featureNames : List XmlEvent → List String
  | [] => []
  | .start tag attrs :: es =>
    (if tag = "FEATURE" then featureNameCaptures attrs else []) ++ featureNames es
  | _ :: es => featureNames es

/-- A `FEATURE` element carrying exactly one `NAME` attribute, with a
non-empty value (the well-formed shape `lmxendutil` emits); all other
events are unconstrained. -/
def goodFeatureEvent : XmlEvent → Prop
  | .start tag attrs =>
    tag = "FEATURE" → ∃ v, featureNameCaptures attrs = [v] ∧ ¬ v = ""
  | _ => True

/-- The last element of a name list, `""` for the empty list (the initial
value of `_fname`). -/
def lastName : List String → String
  | [] => ""
  | [n] => n
  | _ :: rest => lastName rest

/-- A concrete two-`FEATURE` document for the C10 witness. -/
def c10doc : List XmlEvent :=
  [XmlEvent.start "FEATURE" [("NAME", "f1")], XmlEvent.start "FEATURE" [("NAME", "f2")]]

/-- What `parse_xml` returns on `c10doc`: only the first feature. -/
def c10data : LmxData := ⟨"", "", [⟨"f1", "", "", "", 0, 0, 0, []⟩]⟩

instance bucketInstLtTrans : IsTrans Bucket (fun a b => a.inst < b.inst) :=
  ⟨fun _ _ _ h1 h2 => lt_trans h1 h2⟩

/-- The aggregated buckets emitted by FlexLM's `fetch_expiration`
(flexlm.rs lines 535-562) for a transcript. -/
def flexlmExpBuckets (lines : List FlexExpLine) : List Bucket :=
  buckets (flexlmParseExp lines)

/-- Concrete FlexLM expiration transcript for the C7 witness. -/
def c7lines : List FlexExpLine :=
  [FlexExpLine.exp "f" "1.0" "3" "31-dec-2030" "v",
   FlexExpLine.exp "g" "1.0" "2" "permanent" "v"]

/-- Concrete HASP feature array for the C7 witness. -/
def c7fs : List HaspFeature := [⟨some "h", some "hname", some "Perpetual", some "1", some "4"⟩]

def c7us : List (String × Int × Int) := [("hname", 4, 1)]

def c7rs : List ExpRec := [⟨"hname", 4, (⊤ : Inst)⟩]

/-! ### Per-adapter emission wrappers -/

/-- FlexLM `fetch_expiration` per-feature emission (no exclusion check). -/
def flexlmExpEmissions (lines : List FlexExpLine) : List (Int × ExpRec) :=
  flexlmEmitExp (flexlmParseExp lines)

/-- RLM per-feature expiration emission (rlm.rs lines 282-311). -/
def rlmExpEmissions (excl : Option (List String)) (lines : List RlmLine) :
    List (Int × ExpRec) :=
  emitExp excl (rlmFetch excl lines).recs

/-- Licman20 per-feature expiration emission (licman20.rs lines 310-336). -/
def l20ExpEmissions (excl : Option (List String)) (lines : List L20Line) :
    List (Int × ExpRec) :=
  emitExp excl (l20Fetch lines).recs

/-- Licman20 aggregated buckets (licman20.rs lines 338-365) — built from
**all** parsed records, with no exclusion filtering. -/
def l20Buckets (lines : List L20Line) : List Bucket :=
  buckets (l20Fetch lines).recs

/-! ### C8 infrastructure -/

/-- A decoded HASP feature record that has a `fid` not in the exclusion set
and is missing `lic`, `logc` or `logl`, or whose `logc`/`logl` does not
parse as an integer (the conditions `fetch` treats with `bail!`). -/
def haspMalformed (excl : Option (List String)) (f : HaspFeature) : Prop :=
  ∃ fid, f.fid = some fid ∧ is_excluded excl fid = false ∧
    (f.logc = none
      ∨ (∃ v, f.logc = some v ∧ parseI64 v = none)
      ∨ f.logl = none
      ∨ (∃ v, f.logl = some v ∧ parseI64 v = none)
      ∨ f.lic = none)

def c1lines : List FlexLine :=
  [FlexLine.usage "sekret" "10" "3", FlexLine.userSingle "alice" "1.0"]

def c1explines : List FlexExpLine :=
  [FlexExpLine.exp "sekret" "1.0" "5" "permanent" "vend"]

def c2lines : List L20Line :=
  [L20Line.productKey "1", L20Line.comment "sekret", L20Line.totalLine "5"]

def c5rlm : List RlmLine :=
  [RlmLine.featVer "f" "1.0", RlmLine.usage "5" "0" "2" "Perpetual"]

def c6lines : List FlexExpLine :=
  [FlexExpLine.exp "sekret" "1.0" "5" "permanent" "v",
   FlexExpLine.exp "ok" "1.0" "2" "permanent" "v"]

/-! ### C3 -/

/-- Whether an LM-X endpoint is healthy: transport succeeded and the parsed
`STATUS` attribute is `"SUCCESS"` (lmx.rs line 219). -/
def lmxHealthy (resp : String → String → Except Unit String)
    (p : String × String) : Bool :=
  match resp p.1 p.2 with
  | .ok s => s = "SUCCESS"
  | .error _ => false

def c3ord : List (String × String) := [("b", "p2"), ("a", "p1")]

/-! ### Theorems -/

/-! ### Pipeline lemmas -/

theorem aggEntry_ne_nil_of_mem {rs : List ExpRec} {r : ExpRec} (h : r ∈ rs) :
    aggEntry rs r.inst ≠ [] := by
  intro hnil
  have : r ∈ aggEntry rs r.inst := by
    simp [aggEntry, List.mem_filter, h]
  simp [hnil] at this

theorem aggFind_of_mem {rs : List ExpRec} {d : Inst}
    (h : ∃ r ∈ rs, r.inst = d) : aggFind rs d = some (aggEntry rs d) := by
  obtain ⟨r, hr, hd⟩ := h
  have := aggEntry_ne_nil_of_mem hr
  rw [hd] at this
  simp [aggFind, this]

/-- Every dropped element of `destutter (≠)` equals its retained predecessor,
so membership is preserved. -/
theorem mem_destutter_ne {α : Type} [DecidableEq α] :
    ∀ (l : List α) (b : α), b ∈ l → b ∈ l.destutter (fun a b => ¬ a = b) := by
  have aux : ∀ (l : List α) (a b : α), b ∈ a :: l →
      b ∈ l.destutter' (fun a b => ¬ a = b) a := by
    intro l
    induction l with
    | nil =>
      intro a b hb
      simp at hb
      simp [List.destutter'_nil, hb]
    | cons c l ih =>
      intro a b hb
      by_cases hac : a = c
      · subst hac
        have hneg : ¬ (fun x y : α => ¬ x = y) a a := by simp
        rw [List.destutter'_cons_neg l hneg]
        rcases List.mem_cons.mp hb with h | h
        · exact ih a b (by simp [h])
        · exact ih a b h
      · have hpos : (fun x y : α => ¬ x = y) a c := hac
        rw [List.destutter'_cons_pos l hpos]
        rcases List.mem_cons.mp hb with h | h
        · simp [h]
        · exact List.mem_cons_of_mem a (ih c b h)
  intro l b hb
  cases l with
  | nil => simp at hb
  | cons a l => exact aux l a b hb

theorem mem_sortedDates {rs : List ExpRec} {r : ExpRec} (h : r ∈ rs) :
    r.inst ∈ sortedDates rs := by
  apply mem_destutter_ne
  rw [List.mem_insertionSort]
  exact List.mem_map_of_mem _ h

theorem sortedDates_subset {rs : List ExpRec} {d : Inst}
    (h : d ∈ sortedDates rs) : ∃ r ∈ rs, r.inst = d := by
  have h2 : d ∈ (rs.map (fun r => r.inst)).insertionSort (· ≤ ·) :=
    (List.destutter_sublist _ _).mem h
  rw [List.mem_insertionSort] at h2
  obtain ⟨r, hr, hrd⟩ := List.mem_map.mp h2
  exact ⟨r, hr, hrd⟩

/-- Adjacent elements that are `≤` and distinct are `<`. -/
theorem chain'_lt_of_le_ne {α : Type} [PartialOrder α] :
    ∀ l : List α, l.Chain' (· ≤ ·) → l.Chain' (fun a b => ¬ a = b) →
      l.Chain' (· < ·)
  | [], _, _ => List.chain'_nil
  | [_], _, _ => List.chain'_singleton _
  | a :: b :: l, hle, hne => by
    rw [List.chain'_cons] at hle hne ⊢
    exact ⟨lt_of_le_of_ne hle.1 hne.1, chain'_lt_of_le_ne (b :: l) hle.2 hne.2⟩

/-- The sorted deduplicated date list is strictly increasing. -/
theorem sortedDates_chain_lt (rs : List ExpRec) :
    (sortedDates rs).Chain' (· < ·) := by
  have hsorted : ((rs.map (fun r => r.inst)).insertionSort (· ≤ ·)).Sorted (· ≤ ·) :=
    List.sorted_insertionSort _ _
  have hsub : (sortedDates rs).Sorted (· ≤ ·) :=
    hsorted.sublist (List.destutter_sublist _ _)
  have hne : (sortedDates rs).Chain' (fun a b => ¬ a = b) :=
    List.destutter_is_chain' _ _
  exact chain'_lt_of_le_ne _ hsub.chain' hne

theorem sortedDates_nodup (rs : List ExpRec) : (sortedDates rs).Nodup := by
  have h := (List.chain'_iff_pairwise.mp (sortedDates_chain_lt rs))
  exact h.imp (fun hlt => ne_of_lt hlt)

/-- Summing a function over a duplicate-free list containing `a`, with the
value at `a` increased by `x`, increases the total by `x`. -/
theorem sum_map_if_bump {α : Type} [DecidableEq α] :
    ∀ (ds : List α) (a : α) (x : Int) (f : α → Int), ds.Nodup → a ∈ ds →
      (ds.map (fun d => if d = a then x + f d else f d)).sum = x + (ds.map f).sum
  | [], a, x, f, _, ha => by simp at ha
  | d :: ds, a, x, f, hnd, ha => by
    rcases List.mem_cons.mp ha with h | h
    · have hnotmem : d ∉ ds := (List.nodup_cons.mp hnd).1
      have hmap : ds.map (fun e => if e = a then x + f e else f e) = ds.map f := by
        apply List.map_congr_left
        intro e he
        have hne : ¬ e = a := by
          intro hc
          rw [hc, h] at he
          exact hnotmem he
        simp [hne]
      have hda : d = a := h.symm
      simp only [List.map_cons, List.sum_cons, if_pos hda, hmap]
      ring
    · have hda : ¬ d = a := by
        intro hc
        exact (List.nodup_cons.mp hnd).1 (hc ▸ h)
      have ih := sum_map_if_bump ds a x f (List.nodup_cons.mp hnd).2 h
      simp only [List.map_cons, List.sum_cons, if_neg hda, ih]
      ring

/-- Partitioning the record counts by instant over any duplicate-free list
of instants covering all records preserves the total count. -/
theorem fiber_sum_total :
    ∀ (rs : List ExpRec) (ds : List Inst), ds.Nodup → (∀ r ∈ rs, r.inst ∈ ds) →
      (ds.map (fun d => ((aggEntry rs d).map (fun r => r.count)).sum)).sum
        = (rs.map (fun r => r.count)).sum
  | [], ds, _, _ => by simp [aggEntry]
  | r :: rs, ds, hnd, hcov => by
    have hmem : r.inst ∈ ds := hcov r (List.mem_cons_self r rs)
    have hcov2 : ∀ s ∈ rs, s.inst ∈ ds := fun s hs => hcov s (List.mem_cons_of_mem r hs)
    have ih := fiber_sum_total rs ds hnd hcov2
    have hstep : ds.map (fun d => ((aggEntry (r :: rs) d).map (fun s => s.count)).sum)
        = ds.map (fun d => if d = r.inst
            then r.count + ((aggEntry rs d).map (fun s => s.count)).sum
            else ((aggEntry rs d).map (fun s => s.count)).sum) := by
      apply List.map_congr_left
      intro d _
      by_cases hd : r.inst = d
      · subst hd
        simp [aggEntry, List.filter_cons]
      · have hd2 : ¬ d = r.inst := fun hc => hd hc.symm
        simp [aggEntry, List.filter_cons, hd, hd2]
    rw [hstep, sum_map_if_bump ds r.inst r.count _ hnd hmem, ih]
    simp

theorem bucketsAux_cons_found {rs : List ExpRec} {d : Inst} (ds : List Inst) (i : Int)
    (hf : aggFind rs d = some (aggEntry rs d)) :
    bucketsAux rs (d :: ds) i
      = ⟨i, (aggEntry rs d).length, ((aggEntry rs d).map (fun r => r.count)).sum, d⟩
          :: bucketsAux rs ds (i + 1) := by
  rw [bucketsAux, hf]

/-- On a date list every element of which is carried by some record, the
bucket loop finds every key; its buckets carry exactly those dates. -/
theorem bucketsAux_inst (rs : List ExpRec) :
    ∀ (ds : List Inst) (i : Int), (∀ d ∈ ds, ∃ r ∈ rs, r.inst = d) →
      (bucketsAux rs ds i).map (fun b => b.inst) = ds
  | [], _, _ => rfl
  | d :: ds, i, h => by
    have hf := aggFind_of_mem (h d (List.mem_cons_self d ds))
    have ih := bucketsAux_inst rs ds (i + 1) (fun e he => h e (List.mem_cons_of_mem d he))
    rw [bucketsAux_cons_found ds i hf, List.map_cons, ih]

theorem bucketsAux_idx (rs : List ExpRec) :
    ∀ (ds : List Inst) (i : Int), (∀ d ∈ ds, ∃ r ∈ rs, r.inst = d) →
      (bucketsAux rs ds i).map (fun b => b.idx)
        = intRange i (bucketsAux rs ds i).length
  | [], _, _ => rfl
  | d :: ds, i, h => by
    have hf := aggFind_of_mem (h d (List.mem_cons_self d ds))
    have ih := bucketsAux_idx rs ds (i + 1) (fun e he => h e (List.mem_cons_of_mem d he))
    rw [bucketsAux_cons_found ds i hf, List.map_cons, ih, List.length_cons, intRange]

theorem bucketsAux_licenseCount (rs : List ExpRec) :
    ∀ (ds : List Inst) (i : Int), (∀ d ∈ ds, ∃ r ∈ rs, r.inst = d) →
      (bucketsAux rs ds i).map (fun b => b.licenseCount)
        = ds.map (fun d => ((aggEntry rs d).map (fun r => r.count)).sum)
  | [], _, _ => rfl
  | d :: ds, i, h => by
    have hf := aggFind_of_mem (h d (List.mem_cons_self d ds))
    have ih := bucketsAux_licenseCount rs ds (i + 1)
      (fun e he => h e (List.mem_cons_of_mem d he))
    rw [bucketsAux_cons_found ds i hf, List.map_cons, ih, List.map_cons]

theorem bucketsAux_content (rs : List ExpRec) :
    ∀ (ds : List Inst) (i : Int), (∀ d ∈ ds, ∃ r ∈ rs, r.inst = d) →
      ∀ b ∈ bucketsAux rs ds i,
        b.featureCount = ((aggEntry rs b.inst).length : Int)
          ∧ b.licenseCount = ((aggEntry rs b.inst).map (fun r => r.count)).sum
  | [], _, _ => by intro b hb; simp [bucketsAux] at hb
  | d :: ds, i, h => by
    intro b hb
    have hf := aggFind_of_mem (h d (List.mem_cons_self d ds))
    rw [bucketsAux_cons_found ds i hf] at hb
    rcases List.mem_cons.mp hb with hb | hb
    · subst hb
      exact ⟨rfl, rfl⟩
    · exact bucketsAux_content rs ds (i + 1)
        (fun e he => h e (List.mem_cons_of_mem d he)) b hb

theorem buckets_cover (rs : List ExpRec) :
    ∀ d ∈ sortedDates rs, ∃ r ∈ rs, r.inst = d :=
  fun _ hd => sortedDates_subset hd

theorem buckets_inst (rs : List ExpRec) :
    (buckets rs).map (fun b => b.inst) = sortedDates rs :=
  bucketsAux_inst rs (sortedDates rs) 0 (buckets_cover rs)

theorem buckets_idx (rs : List ExpRec) :
    (buckets rs).map (fun b => b.idx) = intRange 0 (buckets rs).length :=
  bucketsAux_idx rs (sortedDates rs) 0 (buckets_cover rs)

theorem buckets_content (rs : List ExpRec) :
    ∀ b ∈ buckets rs,
      b.featureCount = ((aggEntry rs b.inst).length : Int)
        ∧ b.licenseCount = ((aggEntry rs b.inst).map (fun r => r.count)).sum :=
  bucketsAux_content rs (sortedDates rs) 0 (buckets_cover rs)

theorem buckets_chain_lt (rs : List ExpRec) :
    (buckets rs).Chain' (fun a b => a.inst < b.inst) := by
  have h := sortedDates_chain_lt rs
  rw [← buckets_inst rs] at h
  exact (List.chain'_map (fun b : Bucket => b.inst)).mp h

/-- Aggregation conservation: the emitted buckets' license counts sum to the
total count over all parsed records. -/
theorem buckets_conservation (rs : List ExpRec) :
    ((buckets rs).map (fun b => b.licenseCount)).sum
      = (rs.map (fun r => r.count)).sum := by
  rw [buckets, bucketsAux_licenseCount rs (sortedDates rs) 0 (buckets_cover rs)]
  exact fiber_sum_total rs (sortedDates rs) (sortedDates_nodup rs)
    (fun r hr => mem_sortedDates hr)

theorem emitExpAux_fst (excl : Option (List String)) :
    ∀ (rs : List ExpRec) (i : Int),
      (emitExpAux excl rs i).map Prod.fst = intRange i (emitExpAux excl rs i).length
  | [], _ => rfl
  | r :: rs, i => by
    by_cases hx : is_excluded excl r.feature
    · simp only [emitExpAux, if_pos hx]
      exact emitExpAux_fst excl rs i
    · simp only [emitExpAux, if_neg hx, List.map_cons, List.length_cons, intRange]
      rw [emitExpAux_fst excl rs (i + 1)]

theorem emitExpAux_snd (excl : Option (List String)) :
    ∀ (rs : List ExpRec) (i : Int),
      (emitExpAux excl rs i).map Prod.snd
        = rs.filter (fun r => ¬ is_excluded excl r.feature)
  | [], _ => rfl
  | r :: rs, i => by
    by_cases hx : is_excluded excl r.feature
    · simp only [emitExpAux, if_pos hx, List.filter_cons, hx]
      simpa using emitExpAux_snd excl rs i
    · simp only [emitExpAux, if_neg hx, List.map_cons, List.filter_cons]
      have hx2 : (decide ¬ is_excluded excl r.feature = true) = true := by
        simp [hx]
      simp only [hx2, if_pos]
      rw [emitExpAux_snd excl rs (i + 1)]

theorem flexlmEmitExpAux_fst :
    ∀ (rs : List ExpRec) (i : Int),
      (flexlmEmitExpAux rs i).map Prod.fst = intRange i rs.length
  | [], _ => rfl
  | r :: rs, i => by
    simp only [flexlmEmitExpAux, List.map_cons, List.length_cons, intRange]
    rw [flexlmEmitExpAux_fst rs (i + 1)]

theorem flexlmEmitExpAux_snd :
    ∀ (rs : List ExpRec) (i : Int), (flexlmEmitExpAux rs i).map Prod.snd = rs
  | [], _ => rfl
  | r :: rs, i => by
    simp only [flexlmEmitExpAux, List.map_cons]
    rw [flexlmEmitExpAux_snd rs (i + 1)]

theorem lastName_concat : ∀ (ns : List String) (v : String), lastName (ns ++ [v]) = v
  | [], _ => rfl
  | [_], _ => rfl
  | _ :: b :: rest, v => lastName_concat (b :: rest) v

theorem lastName_mem : ∀ (ns : List String), ns ≠ [] → lastName ns ∈ ns
  | [], h => absurd rfl h
  | [n], _ => by simp [lastName]
  | a :: b :: rest, _ => by
    have := lastName_mem (b :: rest) (by simp)
    simp only [lastName]
    exact List.mem_cons_of_mem a this

theorem featureNameCaptures_nil {attrs : List (String × String)}
    (h : featureNameCaptures attrs = []) : ∀ a ∈ attrs, ¬ a.1 = "NAME" := by
  intro a ha hname
  have hf : attrs.filter (fun a => a.1 = "NAME") = [] := by
    have := congrArg List.length h
    simp only [featureNameCaptures, List.length_map, List.length_nil] at this
    exact List.eq_nil_of_length_eq_zero this
  have hmem : a ∈ attrs.filter (fun a => a.1 = "NAME") := by
    rw [List.mem_filter]
    exact ⟨ha, by simp [hname]⟩
  rw [hf] at hmem
  simp at hmem

/-- An attribute list with a single `NAME` capture splits around that
attribute. -/
theorem featureNameCaptures_singleton :
    ∀ (attrs : List (String × String)) (v : String),
      featureNameCaptures attrs = [v] →
      ∃ pre post, attrs = pre ++ ("NAME", v) :: post
        ∧ (∀ a ∈ pre, ¬ a.1 = "NAME") ∧ (∀ a ∈ post, ¬ a.1 = "NAME")
  | [], v, h => by simp [featureNameCaptures] at h
  | (k, w) :: rest, v, h => by
    by_cases hk : k = "NAME"
    · subst hk
      have : featureNameCaptures (("NAME", w) :: rest) = w :: featureNameCaptures rest := by
        simp [featureNameCaptures, List.filter_cons]
      rw [this] at h
      injection h with h1 h2
      subst h1
      exact ⟨[], rest, by simp, by simp, featureNameCaptures_nil h2⟩
    · have : featureNameCaptures ((k, w) :: rest) = featureNameCaptures rest := by
        simp [featureNameCaptures, List.filter_cons, hk]
      rw [this] at h
      obtain ⟨pre, post, heq, hpre, hpost⟩ := featureNameCaptures_singleton rest v h
      exact ⟨(k, w) :: pre, post, by simp [heq], by
        intro a ha
        rcases List.mem_cons.mp ha with h2 | h2
        · subst h2; exact hk
        · exact hpre a h2, hpost⟩

theorem lmxFeatAttrOne_other {a : String × String} {st : LmxParseState}
    {loc : LmxLocals} {st2 : LmxParseState} {loc2 : LmxLocals}
    (hn : ¬ a.1 = "NAME") (h : lmxFeatAttrOne a st loc = .ok (st2, loc2)) :
    st2 = st ∧ loc2.name = loc.name := by
  unfold lmxFeatAttrOne at h
  rw [if_neg hn] at h
  split_ifs at h
  all_goals
    first
    | (simp only [Except.ok.injEq, Prod.mk.injEq] at h
       obtain ⟨h1, h2⟩ := h
       subst h1
       subst h2
       exact ⟨rfl, rfl⟩)
    | (split at h
       · simp only [Except.ok.injEq, Prod.mk.injEq] at h
         obtain ⟨h1, h2⟩ := h
         subst h1
         subst h2
         exact ⟨rfl, rfl⟩
       · simp at h)

theorem lmxFeatAttrOne_name {a : String × String} {st : LmxParseState}
    {loc : LmxLocals} {st2 : LmxParseState} {loc2 : LmxLocals}
    (hn : a.1 = "NAME") (h : lmxFeatAttrOne a st loc = .ok (st2, loc2)) :
    st2.result.features
        = st.result.features ++ (if st.fname = "" then [] else [st.feature])
      ∧ st2.fname = a.2 ∧ st2.feature = st.feature ∧ loc2.name = a.2 := by
  unfold lmxFeatAttrOne at h
  rw [if_pos hn] at h
  simp only [Except.ok.injEq, Prod.mk.injEq] at h
  obtain ⟨h1, h2⟩ := h
  subst h1
  subst h2
  by_cases hf : st.fname = ""
  · simp [hf]
  · simp [hf]

theorem lmxFeatAttrs_noname :
    ∀ (attrs : List (String × String)) (st : LmxParseState) (loc : LmxLocals)
      (st2 : LmxParseState) (loc2 : LmxLocals),
      (∀ a ∈ attrs, ¬ a.1 = "NAME") →
      lmxFeatAttrs attrs st loc = .ok (st2, loc2) →
      st2 = st ∧ loc2.name = loc.name
  | [], st, loc, st2, loc2, _, h => by
    simp only [lmxFeatAttrs, Except.ok.injEq, Prod.mk.injEq] at h
    obtain ⟨h1, h2⟩ := h
    subst h1
    subst h2
    exact ⟨rfl, rfl⟩
  | a :: rest, st, loc, st2, loc2, hno, h => by
    rw [lmxFeatAttrs] at h
    cases hone : lmxFeatAttrOne a st loc with
    | error e => rw [hone] at h; simp at h
    | ok p =>
      rw [hone] at h
      obtain ⟨hst, hname⟩ := lmxFeatAttrOne_other (hno a (List.mem_cons_self a rest)) hone
      have ih := lmxFeatAttrs_noname rest p.1 p.2 st2 loc2
        (fun x hx => hno x (List.mem_cons_of_mem a hx)) h
      exact ⟨ih.1.trans hst, ih.2.trans hname⟩

theorem lmxFeatAttrs_onename :
    ∀ (pre : List (String × String)) (v : String) (post : List (String × String))
      (st : LmxParseState) (loc : LmxLocals) (st2 : LmxParseState) (loc2 : LmxLocals),
      (∀ a ∈ pre, ¬ a.1 = "NAME") → (∀ a ∈ post, ¬ a.1 = "NAME") →
      lmxFeatAttrs (pre ++ ("NAME", v) :: post) st loc = .ok (st2, loc2) →
      st2.result.features
          = st.result.features ++ (if st.fname = "" then [] else [st.feature])
        ∧ st2.fname = v ∧ st2.feature = st.feature ∧ loc2.name = v
  | [], v, post, st, loc, st2, loc2, _, hpost, h => by
    rw [List.nil_append, lmxFeatAttrs] at h
    cases hone : lmxFeatAttrOne ("NAME", v) st loc with
    | error e => rw [hone] at h; simp at h
    | ok p =>
      rw [hone] at h
      obtain ⟨hfeat, hfname, hfeature, hlname⟩ := lmxFeatAttrOne_name rfl hone
      obtain ⟨hst, hname⟩ := lmxFeatAttrs_noname post p.1 p.2 st2 loc2 hpost h
      subst hst
      exact ⟨hfeat, hfname, hfeature, hname.trans hlname⟩
  | a :: pre, v, post, st, loc, st2, loc2, hpre, hpost, h => by
    rw [List.cons_append, lmxFeatAttrs] at h
    cases hone : lmxFeatAttrOne a st loc with
    | error e => rw [hone] at h; simp at h
    | ok p =>
      rw [hone] at h
      obtain ⟨hst, _⟩ := lmxFeatAttrOne_other (hpre a (List.mem_cons_self a pre)) hone
      subst hst
      exact lmxFeatAttrs_onename pre v post p.1 p.2 st2 loc2
        (fun x hx => hpre x (List.mem_cons_of_mem a hx)) hpost h

theorem lmxPathAttrs_features :
    ∀ (attrs : List (String × String)) (d : LmxData),
      (lmxPathAttrs attrs d).features = d.features
  | [], _ => rfl
  | a :: rest, d => by
    rw [lmxPathAttrs, List.foldl_cons]
    have := lmxPathAttrs_features rest
      (if a.1 = "SERVER_VERSION" then { d with server_version := a.2 }
       else if a.1 = "STATUS" then { d with server_status := a.2 } else d)
    rw [lmxPathAttrs] at this
    rw [this]
    split_ifs <;> rfl

theorem dropLast_lastName : ∀ (ns : List String), ns ≠ [] →
    ns.dropLast ++ [lastName ns] = ns
  | [], h => absurd rfl h
  | [n], _ => rfl
  | a :: b :: rest, _ => by
    have := dropLast_lastName (b :: rest) (by simp)
    simp only [List.dropLast_cons₂, List.cons_append, lastName]
    rw [this]

/-- The invariant of the `parse_xml` event loop: after processing a prefix
whose `FEATURE` names so far are `ns0`, the pushed feature names are
`ns0.dropLast`, and `_fname` and the held feature's name equal the last
name. -/
theorem lmxLoop_names :
    ∀ (evs : List XmlEvent) (st : LmxParseState) (st2 : LmxParseState)
      (ns0 : List String),
      (∀ ev ∈ evs, goodFeatureEvent ev) →
      lmxParseLoop evs st = .ok st2 →
      st.fname = lastName ns0 →
      st.feature.feature = lastName ns0 →
      st.result.features.map (fun f => f.feature) = ns0.dropLast →
      (∀ n ∈ ns0, ¬ n = "") →
      st2.result.features.map (fun f => f.feature) = (ns0 ++ featureNames evs).dropLast
  | [], st, st2, ns0, _, h, _, _, hmap, _ => by
    simp only [lmxParseLoop, Except.ok.injEq] at h
    subst h
    simpa [featureNames] using hmap
  | ev :: es, st, st2, ns0, hgood, h, hfn, hff, hmap, hne => by
    rw [lmxParseLoop] at h
    cases hstep : lmxEventStep st ev with
    | error e => rw [hstep] at h; simp at h
    | ok st1 =>
      rw [hstep] at h
      have hgood2 : ∀ e ∈ es, goodFeatureEvent e :=
        fun e he => hgood e (List.mem_cons_of_mem ev he)
      cases ev with
      | close tag =>
        simp only [lmxEventStep, Except.ok.injEq] at hstep
        subst hstep
        exact lmxLoop_names es st st2 ns0 hgood2 h hfn hff hmap hne
      | text s =>
        simp only [lmxEventStep, Except.ok.injEq] at hstep
        subst hstep
        exact lmxLoop_names es st st2 ns0 hgood2 h hfn hff hmap hne
      | start tag attrs =>
        by_cases h1 : tag = "LICENSE_PATH"
        · simp only [lmxEventStep, if_pos h1, Except.ok.injEq] at hstep
          subst hstep
          have hfeats : ({ st with result := lmxPathAttrs attrs st.result } :
              LmxParseState).result.features.map (fun f => f.feature) = ns0.dropLast := by
            show (lmxPathAttrs attrs st.result).features.map (fun f => f.feature)
              = ns0.dropLast
            rw [lmxPathAttrs_features attrs st.result]
            exact hmap
          have := lmxLoop_names es _ st2 ns0 hgood2 h hfn hff hfeats hne
          rw [this]
          have hnf : featureNames (XmlEvent.start tag attrs :: es) = featureNames es := by
            simp [featureNames, h1]
          rw [hnf]
        · by_cases h2 : tag = "FEATURE"
          · -- the flush-on-NAME case
            obtain ⟨v, hcap, hv⟩ := (hgood (XmlEvent.start tag attrs)
              (List.mem_cons_self _ es)) h2
            simp only [lmxEventStep, if_neg h1, if_pos h2] at hstep
            cases hattrs : lmxFeatAttrs attrs st ⟨"", "", "", "", 0, 0, 0⟩ with
            | error e => rw [hattrs] at hstep; simp at hstep
            | ok p =>
              rw [hattrs] at hstep
              simp only [Except.ok.injEq] at hstep
              obtain ⟨pre, post, heq, hpre, hpost⟩ := featureNameCaptures_singleton attrs v hcap
              rw [heq] at hattrs
              obtain ⟨hfeat, hfname, _, hlname⟩ :=
                lmxFeatAttrs_onename pre v post st _ p.1 p.2 hpre hpost hattrs
              subst hstep
              -- the new state after the FEATURE event
              have hfn1 : ({ p.1 with feature := ⟨p.2.name, p.2.version, p.2.vendor,
                  p.2.expiration, p.2.used, p.2.total, p.2.denied, []⟩ } :
                  LmxParseState).fname = lastName (ns0 ++ [v]) := by
                show p.1.fname = lastName (ns0 ++ [v])
                rw [hfname, lastName_concat]
              have hff1 : ({ p.1 with feature := ⟨p.2.name, p.2.version, p.2.vendor,
                  p.2.expiration, p.2.used, p.2.total, p.2.denied, []⟩ } :
                  LmxParseState).feature.feature = lastName (ns0 ++ [v]) := by
                show p.2.name = lastName (ns0 ++ [v])
                rw [hlname, lastName_concat]
              have hmap1 : ({ p.1 with feature := ⟨p.2.name, p.2.version, p.2.vendor,
                  p.2.expiration, p.2.used, p.2.total, p.2.denied, []⟩ } :
                  LmxParseState).result.features.map (fun f => f.feature)
                  = (ns0 ++ [v]).dropLast := by
                show p.1.result.features.map (fun f => f.feature) = (ns0 ++ [v]).dropLast
                rw [hfeat, List.dropLast_concat]
                by_cases hns : ns0 = []
                · subst hns
                  simp only [List.dropLast_nil] at hmap
                  have : st.fname = "" := by rw [hfn]; rfl
                  rw [if_pos this]
                  simpa using hmap
                · have hlast : ¬ st.fname = "" := by
                    rw [hfn]
                    exact hne _ (lastName_mem ns0 hns)
                  rw [if_neg hlast]
                  rw [List.map_append, hmap]
                  have : st.feature.feature = lastName ns0 := hff
                  simp only [List.map_cons, List.map_nil, this]
                  exact dropLast_lastName ns0 hns
              have hne1 : ∀ n ∈ ns0 ++ [v], ¬ n = "" := by
                intro n hn
                rcases List.mem_append.mp hn with hn | hn
                · exact hne n hn
                · simp only [List.mem_singleton] at hn
                  subst hn
                  exact hv
              have := lmxLoop_names es _ st2 (ns0 ++ [v]) hgood2 h hfn1 hff1 hmap1 hne1
              rw [this]
              have hnf : featureNames (XmlEvent.start tag attrs :: es)
                  = v :: featureNames es := by
                simp [featureNames, h2, hcap]
              rw [hnf, List.append_assoc]
              rfl
          · by_cases h3 : tag = "USER"
            · simp only [lmxEventStep, if_neg h1, if_neg h2, if_pos h3] at hstep
              cases huser : lmxUserAttrs attrs ("", 0) with
              | error e => rw [huser] at hstep; simp at hstep
              | ok q =>
                rw [huser] at hstep
                simp only [Except.ok.injEq] at hstep
                subst hstep
                have := lmxLoop_names es _ st2 ns0 hgood2 h hfn hff hmap hne
                rw [this]
                have hnf : featureNames (XmlEvent.start tag attrs :: es)
                    = featureNames es := by
                  simp [featureNames, h2]
                rw [hnf]
            · simp only [lmxEventStep, if_neg h1, if_neg h2, if_neg h3,
                Except.ok.injEq] at hstep
              subst hstep
              have := lmxLoop_names es st st2 ns0 hgood2 h hfn hff hmap hne
              rw [this]
              have hnf : featureNames (XmlEvent.start tag attrs :: es)
                  = featureNames es := by
                simp [featureNames, h2]
              rw [hnf]

/-- Claim C10: in the LM-X XML parser, a `FEATURE` element's record is
appended to the result only when a later `FEATURE` element's `NAME`
attribute is encountered, and nothing is flushed at end of input; so for a
document whose `FEATURE` elements (each with one non-empty `NAME`
attribute) number `N ≥ 1`, the returned feature list holds exactly the
first `N - 1` of them — in particular a single-`FEATURE` document yields an
empty feature list. -/
theorem C10_lmx_feature_flush (evs : List XmlEvent) (data : LmxData)
    (hgood : ∀ ev ∈ evs, goodFeatureEvent ev)
    (hok : lmxParseXml evs = .ok data) :
    data.features.map (fun f => f.feature) = (featureNames evs).dropLast
      ∧ data.features.length = (featureNames evs).length - 1
      ∧ ((featureNames evs).length = 1 → data.features = []) := by
  unfold lmxParseXml at hok
  cases hloop : lmxParseLoop evs ⟨⟨"", "", []⟩, ⟨"", "", "", "", 0, 0, 0, []⟩, ""⟩ with
  | error e => rw [hloop] at hok; simp at hok
  | ok st =>
    rw [hloop] at hok
    simp only [Except.ok.injEq] at hok
    subst hok
    have hmain := lmxLoop_names evs _ st [] hgood hloop rfl rfl rfl (by simp)
    rw [List.nil_append] at hmain
    refine ⟨hmain, ?_, ?_⟩
    · have := congrArg List.length hmain
      simpa using this
    · intro hlen
      have : (featureNames evs).dropLast = [] := by
        have := List.length_dropLast (featureNames evs)
        rw [hlen] at this
        exact List.eq_nil_of_length_eq_zero this
      rw [this] at hmain
      exact List.map_eq_nil_iff.mp hmain

/-- Witness for C10 at a two-`FEATURE` document: only the first feature is
returned. -/
theorem C10_lmx_feature_flush_witness :
    c10data.features.map (fun f => f.feature) = (featureNames c10doc).dropLast
      ∧ c10data.features.length = (featureNames c10doc).length - 1
      ∧ ((featureNames c10doc).length = 1 → c10data.features = []) :=
  C10_lmx_feature_flush c10doc c10data
    (by
      intro ev hev
      simp only [c10doc, List.mem_cons, List.not_mem_nil, or_false] at hev
      rcases hev with h | h
      · subst h
        intro _
        exact ⟨"f1", rfl, by decide⟩
      · subst h
        intro _
        exact ⟨"f2", rfl, by decide⟩)
    (by rfl)

theorem intRange_length : ∀ (i : Int) (n : Nat), (intRange i n).length = n
  | _, 0 => rfl
  | i, n + 1 => by
    simp only [intRange, List.length_cons]
    rw [intRange_length (i + 1) n]

theorem intRange_get :
    ∀ (i : Int) (n : Nat) (k : Nat) (h : k < (intRange i n).length),
      (intRange i n).get ⟨k, h⟩ = i + (k : Int)
  | i, 0, k, h => by simp [intRange_length] at h
  | i, n + 1, 0, h => by simp [intRange]
  | i, n + 1, k + 1, h => by
    simp only [intRange, List.get_cons_succ]
    rw [intRange_get (i + 1) n k]
    push_cast
    ring

theorem buckets_get_idx (rs : List ExpRec) (k : Fin (buckets rs).length) :
    ((buckets rs).get k).idx = ((k : Nat) : Int) := by
  have hmap := buckets_idx rs
  have hlen : ((buckets rs).map (fun b => b.idx)).length = (buckets rs).length := by
    simp
  have hlen2 : (k : Nat) < (intRange 0 (buckets rs).length).length := by
    rw [intRange_length]
    exact k.isLt
  have := List.get_of_eq hmap ⟨(k : Nat), by rw [hlen]; exact k.isLt⟩
  rw [List.get_map] at this
  rw [intRange_get 0 (buckets rs).length (k : Nat) hlen2] at this
  simpa using this

theorem buckets_pairwise (rs : List ExpRec) :
    (buckets rs).Pairwise (fun a b => a.inst < b.inst) := by
  have := buckets_chain_lt rs
  exact List.chain'_iff_pairwise.mp this

/-- A bucket with the infinite instant is indexed after every bucket with a
finite instant. -/
theorem buckets_top_last (rs : List ExpRec) :
    ∀ a ∈ buckets rs, ∀ b ∈ buckets rs,
      ¬ a.inst = ⊤ → b.inst = ⊤ → a.idx < b.idx := by
  intro a ha b hb hfin htop
  obtain ⟨i, hi⟩ := List.mem_iff_get.mp ha
  obtain ⟨j, hj⟩ := List.mem_iff_get.mp hb
  have hij : (i : Nat) ≠ (j : Nat) := by
    intro hc
    apply hfin
    have : i = j := Fin.ext hc
    rw [← hi, this, hj]
    exact htop
  have hpw := List.pairwise_iff_get.mp (buckets_pairwise rs)
  rcases Nat.lt_or_ge (i : Nat) (j : Nat) with hlt | hge
  · have h1 := buckets_get_idx rs i
    have h2 := buckets_get_idx rs j
    rw [hi] at h1
    rw [hj] at h2
    rw [h1, h2]
    exact_mod_cast hlt
  · have hlt : (j : Nat) < (i : Nat) := Nat.lt_of_le_of_ne hge (fun hc => hij hc.symm)
    have := hpw j i (by exact_mod_cast hlt)
    rw [hi, hj] at this
    rw [htop] at this
    exact absurd this not_top_lt

/-- Claim C7: aggregated expiration buckets have index labels contiguous
from 0, strictly increasing instants, are formed by exact equality of the
instant (feature count = group size, license count = group sum over records
with exactly that instant), and an infinite instant is indexed after every
finite one — shown for FlexLM's `fetch_expiration` and for the HASP fetch
(whose buckets are emitted from the records of a successful feature
loop). -/
theorem C7_bucket_structure :
    (∀ lines : List FlexExpLine,
        ((flexlmExpBuckets lines).map (fun b => b.idx)
            = intRange 0 (flexlmExpBuckets lines).length)
          ∧ (flexlmExpBuckets lines).Chain' (fun a b => a.inst < b.inst)
          ∧ (∀ b ∈ flexlmExpBuckets lines,
              b.featureCount = ((aggEntry (flexlmParseExp lines) b.inst).length : Int)
                ∧ b.licenseCount
                  = ((aggEntry (flexlmParseExp lines) b.inst).map (fun r => r.count)).sum)
          ∧ (∀ a ∈ flexlmExpBuckets lines, ∀ b ∈ flexlmExpBuckets lines,
              ¬ a.inst = ⊤ → b.inst = ⊤ → a.idx < b.idx))
    ∧ (∀ (excl : Option (List String)) (fs : List HaspFeature)
          (us : List (String × Int × Int)) (rs : List ExpRec),
        haspProcess excl fs [] [] = .ok (us, rs) →
        ((buckets rs).map (fun b => b.idx) = intRange 0 (buckets rs).length)
          ∧ (buckets rs).Chain' (fun a b => a.inst < b.inst)
          ∧ (∀ b ∈ buckets rs,
              b.featureCount = ((aggEntry rs b.inst).length : Int)
                ∧ b.licenseCount = ((aggEntry rs b.inst).map (fun r => r.count)).sum)
          ∧ (∀ a ∈ buckets rs, ∀ b ∈ buckets rs,
              ¬ a.inst = ⊤ → b.inst = ⊤ → a.idx < b.idx)) :=
  ⟨fun lines =>
    ⟨buckets_idx _, buckets_chain_lt _, buckets_content _, buckets_top_last _⟩,
   fun _ _ _ rs _ =>
    ⟨buckets_idx rs, buckets_chain_lt rs, buckets_content rs, buckets_top_last rs⟩⟩

/-- Witness for C7 at concrete FlexLM and HASP inputs. -/
theorem C7_bucket_structure_witness :
    (haspProcess none c7fs [] [] = .ok (c7us, c7rs))
      ∧ (((buckets c7rs).map (fun b => b.idx) = intRange 0 (buckets c7rs).length)
          ∧ (buckets c7rs).Chain' (fun a b => a.inst < b.inst)
          ∧ (∀ b ∈ buckets c7rs,
              b.featureCount = ((aggEntry c7rs b.inst).length : Int)
                ∧ b.licenseCount = ((aggEntry c7rs b.inst).map (fun r => r.count)).sum)
          ∧ (∀ a ∈ buckets c7rs, ∀ b ∈ buckets c7rs,
              ¬ a.inst = ⊤ → b.inst = ⊤ → a.idx < b.idx))
      ∧ (((flexlmExpBuckets c7lines).map (fun b => b.idx)
            = intRange 0 (flexlmExpBuckets c7lines).length)
          ∧ (flexlmExpBuckets c7lines).Chain' (fun a b => a.inst < b.inst)
          ∧ (∀ b ∈ flexlmExpBuckets c7lines,
              b.featureCount = ((aggEntry (flexlmParseExp c7lines) b.inst).length : Int)
                ∧ b.licenseCount
                  = ((aggEntry (flexlmParseExp c7lines) b.inst).map (fun r => r.count)).sum)
          ∧ (∀ a ∈ flexlmExpBuckets c7lines, ∀ b ∈ flexlmExpBuckets c7lines,
              ¬ a.inst = ⊤ → b.inst = ⊤ → a.idx < b.idx)) :=
  ⟨by rfl,
   C7_bucket_structure.2 none c7fs c7us c7rs (by rfl),
   C7_bucket_structure.1 c7lines⟩

/-- Claim C9: the HASP `massage` function deletes every CR and LF, then
deletes every non-greedy C-style comment, then wraps the result in
`"[ "` and `" ]"`; on the raw transcript of the claim it produces the
bracketed two-object text, which JSON-decodes as a 2-element array. -/
theorem C9_hasp_massage :
    (∀ s : String,
        massage s = "[ " ++ String.mk (stripComments
          ((s.data.filter (fun c => ¬ c = '\r')).filter (fun c => ¬ c = '\n'))) ++ " ]")
      ∧ massage "/* comment */\r\n\x7b\"fid\":\"1\"\x7d\r\n,\r\n\x7b\"fid\":\"2\"\x7d"
          = "[ \x7b\"fid\":\"1\"\x7d,\x7b\"fid\":\"2\"\x7d ]"
      ∧ decodeJson (massage "/* comment */\r\n\x7b\"fid\":\"1\"\x7d\r\n,\r\n\x7b\"fid\":\"2\"\x7d")
          = some (Json.arr [Json.obj [("fid", Json.str "1")],
              Json.obj [("fid", Json.str "2")]]) :=
  ⟨fun _ => rfl, by decide, by rfl⟩

theorem haspProcess_error_head {excl : Option (List String)} {f : HaspFeature}
    (fs : List HaspFeature) (us : List (String × Int × Int)) (rs : List ExpRec)
    (hm : haspMalformed excl f) :
    ∃ e, haspProcess excl (f :: fs) us rs = .error e := by
  obtain ⟨fid, hfid, hexcl, hbad⟩ := hm
  rw [haspProcess]
  simp only [hfid]
  rw [if_neg (by simp [hexcl])]
  cases hlogc : f.logc with
  | none => exact ⟨_, rfl⟩
  | some v =>
    dsimp only
    cases hv : parseI64 v with
    | none => exact ⟨_, rfl⟩
    | some n =>
      dsimp only
      cases hlogl : f.logl with
      | none => exact ⟨_, rfl⟩
      | some w =>
        dsimp only
        cases hw : parseI64 w with
        | none => exact ⟨_, rfl⟩
        | some m =>
          dsimp only
          cases hlic : f.lic with
          | none => exact ⟨_, rfl⟩
          | some lic =>
            exfalso
            rcases hbad with h | ⟨v2, hv2, hp2⟩ | h | ⟨v2, hv2, hp2⟩ | h
            · rw [hlogc] at h; exact Option.noConfusion h
            · rw [hlogc] at hv2
              injection hv2 with hv3
              subst hv3
              rw [hv] at hp2
              exact Option.noConfusion hp2
            · rw [hlogl] at h; exact Option.noConfusion h
            · rw [hlogl] at hv2
              injection hv2 with hv3
              subst hv3
              rw [hw] at hp2
              exact Option.noConfusion hp2
            · rw [hlic] at h; exact Option.noConfusion h

theorem haspProcess_error_of_malformed {excl : Option (List String)} :
    ∀ (fs : List HaspFeature) (us : List (String × Int × Int)) (rs : List ExpRec),
      (∃ f ∈ fs, haspMalformed excl f) →
      ∃ e, haspProcess excl fs us rs = .error e
  | [], _, _, h => by simp at h
  | f :: fs, us, rs, h => by
    rcases h with ⟨g, hg, hm⟩
    rcases List.mem_cons.mp hg with hgf | hgtail
    · subst hgf
      exact haspProcess_error_head fs us rs hm
    · have htail : ∃ g ∈ fs, haspMalformed excl g := ⟨g, hgtail, hm⟩
      rw [haspProcess]
      cases hfid : f.fid with
      | none => exact haspProcess_error_of_malformed fs us rs htail
      | some fid =>
        dsimp only
        by_cases hexcl : is_excluded excl fid = true
        · rw [if_pos hexcl]
          exact haspProcess_error_of_malformed fs us rs htail
        · rw [if_neg hexcl]
          cases f.logc with
          | none => exact ⟨_, rfl⟩
          | some v =>
            dsimp only
            cases parseI64 v with
            | none => exact ⟨_, rfl⟩
            | some n =>
              dsimp only
              cases f.logl with
              | none => exact ⟨_, rfl⟩
              | some w =>
                dsimp only
                cases parseI64 w with
                | none => exact ⟨_, rfl⟩
                | some m =>
                  dsimp only
                  cases f.lic with
                  | none => exact ⟨_, rfl⟩
                  | some lic =>
                    dsimp only
                    by_cases hempty : lic = ""
                    · rw [if_pos hempty]
                      exact haspProcess_error_of_malformed fs _ rs htail
                    · rw [if_neg hempty]
                      by_cases hperp : lic = "Perpetual"
                      · rw [if_pos hperp]
                        exact haspProcess_error_of_malformed fs _ _ htail
                      · rw [if_neg hperp]
                        cases haspCapture lic with
                        | none => exact ⟨_, rfl⟩
                        | some cap =>
                          dsimp only
                          cases parseHaspDT cap with
                          | none => exact haspProcess_error_of_malformed fs _ _ htail
                          | some t => exact haspProcess_error_of_malformed fs _ _ htail

/-- Claim C8 (amended): if the decoded HASP feature array contains a record
with a `fid` **not in the exclusion set** that is missing `lic`, `logc` or
`logl`, or whose `logc`/`logl` does not convert to an integer, the HASP
fetch returns an error (the `bail!` aborts the loop, so no further features
are processed). -/
theorem C8_hasp_structural_error (excl : Option (List String))
    (fs : List HaspFeature) (h : ∃ f ∈ fs, haspMalformed excl f) :
    ∃ e, haspProcess excl fs [] [] = .error e :=
  haspProcess_error_of_malformed fs [] [] h

/-- Witness for C8: a feature with `fid` present and `logc` missing makes
the fetch error. -/
theorem C8_hasp_structural_error_witness :
    (∃ f ∈ [(⟨some "g", none, some "x", none, some "1"⟩ : HaspFeature)],
        haspMalformed none f)
      ∧ ∃ e, haspProcess none [⟨some "g", none, some "x", none, some "1"⟩] [] []
          = .error e :=
  ⟨⟨⟨some "g", none, some "x", none, some "1"⟩, List.mem_singleton.mpr rfl,
      ⟨"g", rfl, rfl, Or.inl rfl⟩⟩,
   C8_hasp_structural_error none [⟨some "g", none, some "x", none, some "1"⟩]
     ⟨⟨some "g", none, some "x", none, some "1"⟩, List.mem_singleton.mpr rfl,
       ⟨"g", rfl, rfl, Or.inl rfl⟩⟩⟩

/-- Counterexample to C8 as stated: the exclusion check precedes the
structural checks, so a feature with a `fid` in the exclusion set that is
missing `lic`, `logc` and `logl` is silently skipped and the fetch
succeeds. -/
theorem C8_hasp_counterexample :
    ((⟨some "f", none, none, none, none⟩ : HaspFeature).logc = none)
      ∧ ((⟨some "f", none, none, none, none⟩ : HaspFeature).fid = some "f")
      ∧ haspProcess (some ["f"]) [⟨some "f", none, none, none, none⟩] [] []
          = .ok ([], []) :=
  ⟨rfl, rfl, by rfl⟩

/-! ### C1 -/

theorem flexlmStep_usage_excl (excl : Option (List String)) (st : FlexState)
    (l : FlexLine) :
    ∀ e ∈ (flexlmStep excl st l).usage, e ∈ st.usage ∨ is_excluded excl e.1 = false := by
  intro e he
  cases l with
  | usage f t u =>
    dsimp only [flexlmStep] at he
    by_cases hx : is_excluded excl f = true
    · rw [if_pos hx] at he
      exact Or.inl he
    · rw [if_neg hx] at he
      rcases hpt : parseI64 t with _ | tv <;> rcases hpu : parseI64 u with _ | uv <;>
        simp only [hpt, hpu] at he
      · exact Or.inl he
      · exact Or.inl he
      · exact Or.inl he
      · rcases List.mem_append.mp he with h | h
        · exact Or.inl h
        · simp only [List.mem_singleton] at h
          subst h
          right
          simpa using hx
  | userSingle u v => exact Or.inl he
  | userMulti u v c =>
    dsimp only [flexlmStep] at he
    rcases hpc : parseI64 c with _ | cv <;> simp only [hpc] at he
    · exact Or.inl he
    · exact Or.inl he
  | serverList s => exact Or.inl he
  | serverStatus a b c d => exact Or.inl he
  | vendorStatus a b c => exact Or.inl he
  | other => exact Or.inl he

theorem flexlmFold_usage_excl (excl : Option (List String)) :
    ∀ (lines : List FlexLine) (st : FlexState),
      (∀ e ∈ st.usage, is_excluded excl e.1 = false) →
      ∀ e ∈ (lines.foldl (flexlmStep excl) st).usage, is_excluded excl e.1 = false
  | [], st, hst => hst
  | l :: lines, st, hst => by
    rw [List.foldl_cons]
    apply flexlmFold_usage_excl excl lines
    intro e he
    rcases flexlmStep_usage_excl excl st l e he with h | h
    · exact hst e h
    · exact h

/-- Claim C1 (amended): FlexLM's `fetch` never emits a feature-usage total
(`flexlm_feature_issued`/`flexlm_feature_used`) for an excluded feature;
but its per-user checkout table and its `fetch_expiration` records are
**not** exclusion-filtered (see the counterexample). -/
theorem C1_flexlm_usage_exclusion (excl : Option (List String))
    (lines : List FlexLine) :
    ∀ e ∈ (flexlmFetch excl lines).usage, is_excluded excl e.1 = false :=
  flexlmFold_usage_excl excl lines ⟨"", [], [], ""⟩ (by intro e he; simp at he)

/-- Witness for C1: a non-excluded usage line is emitted and not excluded. -/
theorem C1_flexlm_usage_exclusion_witness :
    ("f", (2 : Int), (1 : Int)) ∈ (flexlmFetch none [FlexLine.usage "f" "2" "1"]).usage
      ∧ is_excluded none ("f", (2 : Int), (1 : Int)).1 = false :=
  ⟨by decide,
   C1_flexlm_usage_exclusion none [FlexLine.usage "f" "2" "1"]
     ("f", (2 : Int), (1 : Int)) (by decide)⟩

/-- Counterexample to C1 as stated: with excluded set `{"sekret"}`, the
usage header line sets the carried feature **before** the exclusion check,
so the following checkout line records a per-user entry for `"sekret"`
(emitted by the export-user loop, which has no exclusion check), and
`fetch_expiration` — which has no exclusion check at all — emits an
expiration entry for `"sekret"`. -/
theorem C1_flexlm_counterexample :
    (∃ e ∈ flexlmUserEmissions (flexlmFetch (some ["sekret"]) c1lines),
        is_excluded (some ["sekret"]) e.feature = true)
      ∧ (∃ p ∈ flexlmExpEmissions c1explines,
          is_excluded (some ["sekret"]) p.2.feature = true) := by
  constructor
  · exact ⟨⟨"sekret", "alice", "1.0", 1⟩, by decide, by decide⟩
  · exact ⟨(1, ⟨"sekret", 5, (⊤ : Inst)⟩), by decide, by decide⟩

/-! ### C2 -/

/-- Claim C2 (amended): for FlexLM — which filters neither the expiration
series nor the aggregation — the bucket license counts sum to the emitted
FeatureExpiration counts; for Licman20 the bucket sum equals the sum over
**all** parsed records including excluded ones (so with a non-empty
exclusion set covering a parsed record it exceeds the sum over the emitted,
exclusion-filtered FeatureExpiration entries; see the counterexample). -/
theorem C2_aggregation_conservation :
    (∀ lines : List FlexExpLine,
        ((flexlmExpBuckets lines).map (fun b => b.licenseCount)).sum
          = ((flexlmExpEmissions lines).map (fun p => p.2.count)).sum)
      ∧ (∀ lines : List L20Line,
          ((l20Buckets lines).map (fun b => b.licenseCount)).sum
            = (((l20Fetch lines).recs).map (fun r => r.count)).sum) := by
  constructor
  · intro lines
    have h1 := buckets_conservation (flexlmParseExp lines)
    have h2 : (flexlmExpEmissions lines).map (fun p => p.2.count)
        = ((flexlmExpEmissions lines).map Prod.snd).map (fun r => r.count) := by
      rw [List.map_map]
      rfl
    rw [flexlmExpBuckets, h1, h2, flexlmExpEmissions, flexlmEmitExp,
      flexlmEmitExpAux_snd]
  · intro lines
    exact buckets_conservation _

/-- Counterexample to C2 as stated: Licman20 builds the aggregation map
from all parsed records but filters the FeatureExpiration emission, so with
`"sekret"` excluded the bucket sum is 5 while the emitted expiration
entries sum to 0. -/
theorem C2_licman20_counterexample :
    ((l20Buckets c2lines).map (fun b => b.licenseCount)).sum = 5
      ∧ ((l20ExpEmissions (some ["sekret"]) c2lines).map (fun p => p.2.count)).sum = 0
      ∧ ¬ (((l20Buckets c2lines).map (fun b => b.licenseCount)).sum
            = ((l20ExpEmissions (some ["sekret"]) c2lines).map
                (fun p => p.2.count)).sum) := by
  refine ⟨by rfl, by rfl, by decide⟩

/-! ### C5 -/

/-- Claim C5 (amended): the sentinel strings are adapter-specific, not
uniform.  FlexLM maps `"1-jan-0"`, `"01-jan-0000"` and strings starting
with `"permanent"` to `+∞` but drops `"Perpetual"`; RLM maps only the exact
string `"permanent"` to `+∞`, drops `"Perpetual"`, and date-parses
`"1-jan-0"` to a finite instant; HASP maps only `"Perpetual"` to `+∞` and
aborts the fetch on `"permanent"`. -/
theorem C5_sentinel_mapping :
    (flexlmExpirationOf "1-jan-0" = some ⊤
      ∧ flexlmExpirationOf "01-jan-0000" = some ⊤
      ∧ flexlmExpirationOf "permanent" = some ⊤
      ∧ flexlmExpirationOf "Perpetual" = none)
      ∧ (rlmExpirationOf "permanent" = some ⊤
        ∧ rlmExpirationOf "Perpetual" = none
        ∧ rlmExpirationOf "1-jan-0" = some ((-62167219200 : Int) : Inst)
        ∧ ¬ (((-62167219200 : Int) : Inst) = (⊤ : Inst)))
      ∧ (haspProcess none [⟨some "f", none, some "Perpetual", some "0", some "1"⟩] [] []
            = .ok ([("f", 1, 0)], [⟨"f", 1, (⊤ : Inst)⟩])
        ∧ haspProcess none [⟨some "f", none, some "permanent", some "0", some "1"⟩] [] []
            = .error "cannot parse HASP license expiration from permanent") := by
  refine ⟨⟨by rfl, by rfl, by rfl, by rfl⟩,
    ⟨by rfl, by rfl, by rfl, by decide⟩, by rfl, by rfl⟩

/-- Counterexample to C5 as stated: in RLM, `"Perpetual"` is not a sentinel;
the date parse fails and the whole record is dropped (no expiration record
and no usage sample), instead of being mapped to `+∞`. -/
theorem C5_rlm_counterexample :
    rlmExpirationOf "Perpetual" = none
      ∧ (rlmFetch none c5rlm).recs = []
      ∧ (rlmFetch none c5rlm).usage = [] :=
  ⟨by rfl, by rfl, by rfl⟩

/-! ### C6 -/

theorem rlmStep_inv (excl : Option (List String)) (st : RlmState) (l : RlmLine)
    (h1 : is_excluded excl st.feature = false ∨ st.feature = "")
    (h2 : ∀ r ∈ st.recs, is_excluded excl r.feature = false) :
    (is_excluded excl (rlmStep excl st l).feature = false
        ∨ (rlmStep excl st l).feature = "")
      ∧ ∀ r ∈ (rlmStep excl st l).recs, is_excluded excl r.feature = false := by
  cases l with
  | featVer f v =>
    dsimp only [rlmStep]
    by_cases hx : is_excluded excl f = true
    · rw [if_pos hx]
      exact ⟨Or.inr rfl, h2⟩
    · rw [if_neg hx]
      exact ⟨Or.inl (by simpa using hx), h2⟩
  | usage t r u e =>
    dsimp only [rlmStep]
    by_cases hf : st.feature = ""
    · rw [if_pos hf]
      exact ⟨h1, h2⟩
    · rw [if_neg hf]
      have hne : is_excluded excl st.feature = false := by
        rcases h1 with h | h
        · exact h
        · exact absurd h hf
      rcases hpt : parseI64 t with _ | tv <;> rcases hpr : parseI64 r with _ | rv <;>
        rcases hpu : parseI64 u with _ | uv <;> simp only [hpt, hpr, hpu]
      iterate 7 exact ⟨h1, h2⟩
      rcases hpe : rlmExpirationOf e with _ | inst <;> simp only [hpe]
      · exact ⟨h1, h2⟩
      · refine ⟨h1, ?_⟩
        intro rec hrec
        rcases List.mem_append.mp hrec with hm | hm
        · exact h2 rec hm
        · simp only [List.mem_singleton] at hm
          subst hm
          exact hne
  | other =>
    exact ⟨h1, h2⟩

theorem rlmFold_inv (excl : Option (List String)) :
    ∀ (lines : List RlmLine) (st : RlmState),
      (is_excluded excl st.feature = false ∨ st.feature = "") →
      (∀ r ∈ st.recs, is_excluded excl r.feature = false) →
      ∀ r ∈ (lines.foldl (rlmStep excl) st).recs, is_excluded excl r.feature = false
  | [], st, _, h2 => h2
  | l :: lines, st, h1, h2 => by
    rw [List.foldl_cons]
    have := rlmStep_inv excl st l h1 h2
    exact rlmFold_inv excl lines (rlmStep excl st l) this.1 this.2

theorem rlmFetch_recs_excl (excl : Option (List String)) (lines : List RlmLine) :
    ∀ r ∈ (rlmFetch excl lines).recs, is_excluded excl r.feature = false :=
  rlmFold_inv excl lines ⟨"", "", [], []⟩ (Or.inr rfl) (by intro r hr; simp at hr)

/-- Claim C6 (amended): RLM — which filters excluded features during
parsing, so its record list holds exactly the non-excluded expiring
records — emits FeatureExpiration indices exactly `1..N` in encounter
order; FlexLM emits indices `1..M` over **all** parsed records, with no
exclusion applied (see the counterexample). -/
theorem C6_expiration_indices :
    (∀ (excl : Option (List String)) (lines : List RlmLine),
        ((rlmExpEmissions excl lines).map Prod.fst
            = intRange 1 (rlmFetch excl lines).recs.length)
          ∧ (rlmExpEmissions excl lines).map Prod.snd = (rlmFetch excl lines).recs)
      ∧ (∀ lines : List FlexExpLine,
          ((flexlmExpEmissions lines).map Prod.fst
              = intRange 1 (flexlmParseExp lines).length)
            ∧ (flexlmExpEmissions lines).map Prod.snd = flexlmParseExp lines) := by
  constructor
  · intro excl lines
    have hfilter : ((rlmFetch excl lines).recs).filter
        (fun r => ¬ is_excluded excl r.feature) = (rlmFetch excl lines).recs := by
      apply List.filter_eq_self.mpr
      intro r hr
      simp [rlmFetch_recs_excl excl lines r hr]
    have hsnd := emitExpAux_snd excl (rlmFetch excl lines).recs 1
    rw [hfilter] at hsnd
    constructor
    · have hfst := emitExpAux_fst excl (rlmFetch excl lines).recs 1
      have hlen : (emitExpAux excl (rlmFetch excl lines).recs 1).length
          = (rlmFetch excl lines).recs.length := by
        have := congrArg List.length hsnd
        simpa using this
      rw [rlmExpEmissions, emitExp, hfst, hlen]
    · exact hsnd
  · intro lines
    exact ⟨flexlmEmitExpAux_fst _ 1, flexlmEmitExpAux_snd _ 1⟩

/-- Counterexample to C6 as stated: FlexLM parsed one excluded and one
non-excluded record (N = 1 non-excluded), but the emitted indices are
`[1, 2]`, not `1..N = [1]`. -/
theorem C6_flexlm_counterexample :
    ((flexlmParseExp c6lines).filter
        (fun r => ¬ is_excluded (some ["sekret"]) r.feature)).length = 1
      ∧ (flexlmExpEmissions c6lines).map Prod.fst = [1, 2]
      ∧ ¬ ((flexlmExpEmissions c6lines).map Prod.fst = intRange 1 1) := by
  refine ⟨by decide, by decide, by decide⟩

theorem olicenseLoop_spec (resp : String → String → Option String) :
    ∀ (ord : List (String × String)) (sts : List (String × String × Int))
      (used : Option (String × String)),
      (olicenseLoop resp ord sts used).1
          = sts ++ ord.map (fun p =>
              (p.1, p.2, if (resp p.1 p.2).isSome then (1 : Int) else 0))
        ∧ (olicenseLoop resp ord sts used).2
          = (match used with
             | some u => some u
             | none => ord.find? (fun p => (resp p.1 p.2).isSome))
  | [], sts, used => by
    cases used <;> simp [olicenseLoop]
  | (s, p) :: rest, sts, used => by
    cases hr : resp s p with
    | none =>
      have ih := olicenseLoop_spec resp rest (sts ++ [(s, p, 0)]) used
      simp only [olicenseLoop, hr] at ih ⊢
      refine ⟨?_, ?_⟩
      · rw [ih.1]
        simp [hr]
      · rw [ih.2]
        cases used with
        | some u => rfl
        | none =>
          simp [List.find?_cons, hr]
    | some v =>
      cases used with
      | some u =>
        have ih := olicenseLoop_spec resp rest (sts ++ [(s, p, 1)]) (some u)
        simp only [olicenseLoop, hr] at ih ⊢
        refine ⟨?_, ?_⟩
        · rw [ih.1]
          simp [hr]
        · rw [ih.2]
      | none =>
        have ih := olicenseLoop_spec resp rest (sts ++ [(s, p, 1)]) (some (s, p))
        simp only [olicenseLoop, hr] at ih ⊢
        refine ⟨?_, ?_⟩
        · rw [ih.1]
          simp [hr]
        · rw [ih.2]
          simp [List.find?_cons, hr]
  termination_by ord => ord.length

theorem lmxLoop_spec (resp : String → String → Except Unit String) :
    ∀ (ord : List (String × String)) (sts : List (String × String × Int))
      (used : Option (String × String)) (sts2 : List (String × String × Int))
      (used2 : Option (String × String)),
      lmxLoop resp ord sts used = .ok (sts2, used2) →
      sts2 = sts ++ ord.map (fun p =>
          (p.1, p.2, if lmxHealthy resp p then (1 : Int) else 0))
        ∧ used2 = (match used with
            | some u => some u
            | none => ord.find? (lmxHealthy resp))
  | [], sts, used, sts2, used2 => by
    intro h
    simp only [lmxLoop, Except.ok.injEq, Prod.mk.injEq] at h
    obtain ⟨h1, h2⟩ := h
    subst h1
    subst h2
    cases used <;> simp
  | (s, p) :: rest, sts, used, sts2, used2 => by
    intro h
    rw [lmxLoop] at h
    cases hr : resp s p with
    | error e => rw [hr] at h; simp at h
    | ok str =>
      rw [hr] at h
      dsimp only at h
      have hhealthy : lmxHealthy resp (s, p) = decide (str = "SUCCESS") := by
        simp [lmxHealthy, hr]
      by_cases hs : str = "SUCCESS"
      · simp only [if_pos hs] at h
        cases used with
        | none =>
          have ih := lmxLoop_spec resp rest (sts ++ [(s, p, 1)]) (some (s, p)) sts2 used2 h
          refine ⟨?_, ?_⟩
          · rw [ih.1]
            simp [hhealthy, hs]
          · rw [ih.2]
            simp [List.find?_cons, hhealthy, hs]
        | some u =>
          have ih := lmxLoop_spec resp rest (sts ++ [(s, p, 1)]) (some u) sts2 used2 h
          refine ⟨?_, ?_⟩
          · rw [ih.1]
            simp [hhealthy, hs]
          · rw [ih.2]
      · simp only [if_neg hs] at h
        have ih := lmxLoop_spec resp rest (sts ++ [(s, p, 0)]) used sts2 used2 h
        refine ⟨?_, ?_⟩
        · rw [ih.1]
          simp [hhealthy, hs]
        · rw [ih.2]
          cases used with
          | some u => rfl
          | none =>
            simp [List.find?_cons, hhealthy, hs]
  termination_by ord => ord.length

/-- Claim C3 (amended): the LM-X/OLicense endpoint loops iterate the
`server_port` HashMap in an **unspecified iteration order** (modelled as a
parameter), not the configured order (see the counterexample).  In that
iteration order: OLicense records one status sample per endpoint — 1 on
success, 0 on transport or parse failure — and exports the feature/usage
payload exclusively from the first healthy endpoint, ignoring later healthy
ones; LM-X does the same on a run without transport failures (a transport
failure `bail!`s out of the whole fetch). -/
theorem C3_ha_endpoint_loop :
    (∀ (resp : String → String → Option String) (ord : List (String × String)),
        (olicenseLoop resp ord [] none).1
            = ord.map (fun p =>
                (p.1, p.2, if (resp p.1 p.2).isSome then (1 : Int) else 0))
          ∧ (olicenseLoop resp ord [] none).2
            = ord.find? (fun p => (resp p.1 p.2).isSome))
      ∧ (∀ (resp : String → String → Except Unit String)
            (ord : List (String × String)) (sts2 : List (String × String × Int))
            (used2 : Option (String × String)),
          lmxLoop resp ord [] none = .ok (sts2, used2) →
          sts2 = ord.map (fun p =>
              (p.1, p.2, if lmxHealthy resp p then (1 : Int) else 0))
            ∧ used2 = ord.find? (lmxHealthy resp)) := by
  constructor
  · intro resp ord
    have h := olicenseLoop_spec resp ord [] none
    simpa using h
  · intro resp ord sts2 used2 h
    have := lmxLoop_spec resp ord [] none sts2 used2 h
    simpa using this

/-- Witness for C3: a two-endpoint LM-X run where only the second endpoint
is healthy sources the usage payload from the second endpoint while both
get a status sample. -/
theorem C3_ha_endpoint_loop_witness :
    lmxLoop (fun s _ => if s = "b" then .ok "SUCCESS" else .ok "DOWN")
        [("a", "p1"), ("b", "p2")] [] none
      = .ok ([("a", "p1", 0), ("b", "p2", 1)], some ("b", "p2"))
      ∧ ([("a", "p1", (0 : Int)), ("b", "p2", 1)]
          = [("a", "p1"), ("b", "p2")].map (fun p => (p.1, p.2,
              if lmxHealthy (fun s _ => if s = "b" then .ok "SUCCESS" else .ok "DOWN") p
              then (1 : Int) else 0)))
      ∧ (some ("b", "p2")
          = [("a", "p1"), ("b", "p2")].find?
              (lmxHealthy (fun s _ => if s = "b" then .ok "SUCCESS" else .ok "DOWN"))) :=
  ⟨by rfl,
   (C3_ha_endpoint_loop.2 (fun s _ => if s = "b" then .ok "SUCCESS" else .ok "DOWN")
     [("a", "p1"), ("b", "p2")] [("a", "p1", 0), ("b", "p2", 1)] (some ("b", "p2"))
     (by rfl)).1,
   (C3_ha_endpoint_loop.2 (fun s _ => if s = "b" then .ok "SUCCESS" else .ok "DOWN")
     [("a", "p1"), ("b", "p2")] [("a", "p1", 0), ("b", "p2", 1)] (some ("b", "p2"))
     (by rfl)).2⟩

/-- Counterexample to C3 as stated: the endpoint map is a HashMap whose
iteration order is unspecified; the reversed order is a permutation of the
map built from license string `"p1@a:p2@b"`, and under it the loop queries
and emits `b` before `a` — not the configured order. -/
theorem C3_order_counterexample :
    c3ord.Perm (serverMapOf "p1@a:p2@b" "8080")
      ∧ ((olicenseLoop (fun _ _ => some "v") c3ord [] none).1.map
          (fun e => e.1) = ["b", "a"])
      ∧ ((configuredEndpoints "p1@a:p2@b" "8080").map Prod.fst = ["a", "b"])
      ∧ ¬ (((olicenseLoop (fun _ _ => some "v") c3ord [] none).1.map (fun e => e.1))
            = (configuredEndpoints "p1@a:p2@b" "8080").map Prod.fst) := by
  refine ⟨by decide, by rfl, by rfl, by decide⟩

/-! ### C4 -/

/-- Claim C4 (amended): in the other adapters a malformed record is dropped
and parsing continues, but in DSLS a `getLicenseUsage -csv` line with fewer
than 13 comma-separated fields, or with a `Count`/`Inuse` field that is not
an integer, makes `extract_data` return an error which `fetch` propagates
with `?` — the fetch returns an error (see the counterexample). -/
theorem C4_dsls_malformed_aborts :
    (∀ line : String, (splitChar ',' line).length < 13 →
        ∃ e, extract_data line = .error e)
      ∧ (∀ line : String, ¬ (splitChar ',' line).length < 13 →
          parseI64 ((splitChar ',' line).getD 11 "") = none →
          ∃ e, extract_data line = .error e)
      ∧ (∀ line : String, ¬ (splitChar ',' line).length < 13 →
          (∃ n, parseI64 ((splitChar ',' line).getD 11 "") = some n) →
          parseI64 ((splitChar ',' line).getD 12 "") = none →
          ∃ e, extract_data line = .error e)
      ∧ (∀ bad : String,
          dslsVersionCapture bad = none → dslsStatusCapture bad = none →
          ¬ bad = "admin >getLicenseUsage -csv" → ¬ bad = "admin >quit" →
          strStartsWith bad "Editor," = false →
          (∃ e, extract_data bad = .error e) →
          ∃ e, dslsScan ["admin >getLicenseUsage -csv", bad] dslsScanInit
            = .error e) := by
  refine ⟨?_, ?_, ?_, ?_⟩
  · intro line h
    rw [extract_data]
    dsimp only
    rw [if_pos h]
    exact ⟨_, rfl⟩
  · intro line h hp
    rw [extract_data]
    dsimp only
    rw [if_neg h, hp]
    exact ⟨_, rfl⟩
  · intro line h hp hq
    rw [extract_data]
    dsimp only
    rw [if_neg h]
    obtain ⟨n, hn⟩ := hp
    rw [hn]
    dsimp only
    rw [hq]
    exact ⟨_, rfl⟩
  · intro bad hv hs hm1 hm2 hed hext
    obtain ⟨e, he⟩ := hext
    have h1 : dslsLineStep dslsScanInit "admin >getLicenseUsage -csv"
        = .ok ⟨true, false, none, none, [], false⟩ := by rfl
    have h2 : dslsLineStep (⟨true, false, none, none, [], false⟩ : DslsScanState) bad
        = .error e := by
      rw [dslsLineStep]
      rw [if_neg (by simp : ¬ (⟨true, false, none, none, [], false⟩ :
        DslsScanState).stopped = true)]
      rw [hv]
      dsimp only
      rw [hs]
      dsimp only
      rw [if_neg hm1, if_neg hm2]
      rw [if_pos rfl]
      rw [if_neg (by simp [hed] : ¬ strStartsWith bad "Editor," = true)]
      rw [he]
    simp only [dslsScan, h1, h2]
    exact ⟨e, rfl⟩

/-- Witness for C4 at the CSV line `"a,b,c"`. -/
theorem C4_dsls_malformed_aborts_witness :
    ((splitChar ',' "a,b,c").length < 13
        ∧ (∃ e, extract_data "a,b,c" = .error e))
      ∧ ∃ e, dslsScan ["admin >getLicenseUsage -csv", "a,b,c"] dslsScanInit
          = .error e :=
  ⟨⟨by decide, C4_dsls_malformed_aborts.1 "a,b,c" (by decide)⟩,
   C4_dsls_malformed_aborts.2.2.2 "a,b,c" (by rfl) (by rfl) (by decide) (by decide)
     (by rfl) (C4_dsls_malformed_aborts.1 "a,b,c" (by decide))⟩

/-- Counterexample to C4 as stated: the short CSV line aborts the whole
DSLS fetch with an error instead of being skipped. -/
theorem C4_dsls_counterexample :
    dslsScan ["admin >getLicenseUsage -csv", "a,b,c"] dslsScanInit
      = .error "Invalid DSLS license usage data - expected at least 13 fields" := by
  rfl
